import Mathlib

/-!
# Verification of `update_windows_config.py`

A shallow embedding of the one-shot configuration patcher
`src-tauri/update_windows_config.py`:

* write the fixed NSIS hook text to `nsis_hooks.nsi`;
* `json.load` the configuration file `tauri.conf.json`;
* overwrite `bundle.resources` with a fixed three-element list;
* create `bundle.windows` and `bundle.windows.nsis` when absent;
* set `bundle.windows.nsis.installerHooks` to the literal `"nsis_hooks.nsi"`;
* `json.dump(config, f, indent=2)` followed by one extra newline.

JSON documents are modelled by the inductive `Json` below; Python dicts are
insertion-ordered association lists, and the dict operations `dictGet` /
`dictSet` mirror `d[k]` and `d[k] = v` (update in place at the first
occurrence of the key, append otherwise).  Python's `json` library is
modelled by `dumpVal` (serialization with `indent=2`, `ensure_ascii`
escaping including surrogate pairs) and `loads` (a recursive-descent
reading of the strict decoder).  Numbers are restricted to integers, which
covers every value the script itself produces; Python would additionally
accept floats and lone-surrogate escapes, neither of which the theorems
below depend on.  A run of the script is `runScript`, a pure function of
the two files it touches.
-/

/-- JSON values as produced by Python's `json.load`: numbers restricted to
integers, objects as insertion-ordered association lists (Python dicts). -/
inductive Json where
  | null : Json
  | bool (b : Bool) : Json
  | num (n : Int) : Json
  | str (s : String) : Json
  | arr (items : List Json) : Json
  | obj (members : List (String × Json)) : Json
deriving Repr

mutual

/-- Decidable equality on `Json` (the `deriving` handler does not support
this nested inductive, so it is spelled out). -/
def decEqJson : (a b : Json) → Decidable (a = b)
  | .null, .null => isTrue rfl
  | .bool a, .bool b =>
    match decEq a b with
    | isTrue h => isTrue (h ▸ rfl)
    | isFalse h => isFalse (fun hh => h (by injection hh))
  | .num a, .num b =>
    match decEq a b with
    | isTrue h => isTrue (h ▸ rfl)
    | isFalse h => isFalse (fun hh => h (by injection hh))
  | .str a, .str b =>
    match decEq a b with
    | isTrue h => isTrue (h ▸ rfl)
    | isFalse h => isFalse (fun hh => h (by injection hh))
  | .arr a, .arr b =>
    match decEqJsonList a b with
    | isTrue h => isTrue (h ▸ rfl)
    | isFalse h => isFalse (fun hh => h (by injection hh))
  | .obj a, .obj b =>
    match decEqJsonMembers a b with
    | isTrue h => isTrue (h ▸ rfl)
    | isFalse h => isFalse (fun hh => h (by injection hh))
  | .null, .bool _ | .null, .num _ | .null, .str _ | .null, .arr _
  | .null, .obj _ | .bool _, .null | .bool _, .num _ | .bool _, .str _
  | .bool _, .arr _ | .bool _, .obj _ | .num _, .null | .num _, .bool _
  | .num _, .str _ | .num _, .arr _ | .num _, .obj _ | .str _, .null
  | .str _, .bool _ | .str _, .num _ | .str _, .arr _ | .str _, .obj _
  | .arr _, .null | .arr _, .bool _ | .arr _, .num _ | .arr _, .str _
  | .arr _, .obj _ | .obj _, .null | .obj _, .bool _ | .obj _, .num _
  | .obj _, .str _ | .obj _, .arr _ => isFalse (by intro h; exact Json.noConfusion h)

def decEqJsonList : (a b : List Json) → Decidable (a = b)
  | [], [] => isTrue rfl
  | [], _ :: _ => isFalse (by intro h; exact List.noConfusion h)
  | _ :: _, [] => isFalse (by intro h; exact List.noConfusion h)
  | x :: xs, y :: ys =>
    match decEqJson x y, decEqJsonList xs ys with
    | isTrue h1, isTrue h2 => isTrue (h1 ▸ h2 ▸ rfl)
    | isFalse h1, _ => isFalse (fun hh => h1 (by injection hh))
    | _, isFalse h2 => isFalse (fun hh => h2 (by injection hh))

def decEqJsonMembers : (a b : List (String × Json)) → Decidable (a = b)
  | [], [] => isTrue rfl
  | [], _ :: _ => isFalse (by intro h; exact List.noConfusion h)
  | _ :: _, [] => isFalse (by intro h; exact List.noConfusion h)
  | (k1, v1) :: xs, (k2, v2) :: ys =>
    match decEq k1 k2, decEqJson v1 v2, decEqJsonMembers xs ys with
    | isTrue h0, isTrue h1, isTrue h2 => isTrue (h0 ▸ h1 ▸ h2 ▸ rfl)
    | isFalse h0, _, _ =>
      isFalse (fun hh => by
        injection hh with hhead htail
        exact h0 (congrArg Prod.fst hhead))
    | _, isFalse h1, _ =>
      isFalse (fun hh => by
        injection hh with hhead htail
        exact h1 (congrArg Prod.snd hhead))
    | _, _, isFalse h2 => isFalse (fun hh => h2 (by injection hh))

end

instance : DecidableEq Json := decEqJson

/-- Python `d[k]` on a dict modelled as an association list: the value at the
first occurrence of the key. -/
def dictGet (d : List (String × Json)) (k : String) : Option Json :=
  match d with
  | [] => none
  | (k2, v) :: r => if k2 = k then some v else dictGet r k

/-- Python `d[k] = v`: replace the value at the first occurrence of the key
keeping its position, append a new entry otherwise. -/
def dictSet (d : List (String × Json)) (k : String) (v : Json) :
    List (String × Json) :=
  match d with
  | [] => [(k, v)]
  | (k2, v2) :: r => if k2 = k then (k2, v) :: r else (k2, v2) :: dictSet r k v

/-- The fixed `bundle.resources` value the script assigns (lines 34-38). -/
def resources_list : List Json :=
  [.str "resources/zig-april-captions.exe",
   .str "resources/onnxruntime.dll",
   .str "resources/vc_redist.x64.exe"]

/-- The verbatim content of `nsis_hooks.nsi` (lines 20-25 of the script). -/
def nsis_hook_content : String :=
  "!macro NSIS_HOOK_POSTINSTALL\n  ; Install VC++ Redistributable silently (required by onnxruntime.dll)\n  ExecWait '\"$INSTDIR\\resources\\vc_redist.x64.exe\" /install /quiet /norestart'\n!macroend\n"

/-- The mutation block of the script (lines 34-46): set `bundle.resources`,
create `bundle.windows` / `bundle.windows.nsis` when missing, set
`bundle.windows.nsis.installerHooks`.  Returns `none` exactly when Python
raises an uncaught error: the document is not an object, `"bundle"` is
missing or not a dict, or an existing `windows` / `nsis` value is not a
dict (every such case raises a `TypeError` or `KeyError` before the final
file write). -/
def update_config (config : Json) : Option Json :=
  match config with
  | .obj c =>
    match dictGet c "bundle" with
    | some (.obj b) =>
      let b1 := dictSet b "resources" (.arr resources_list)
      let b2 := if (dictGet b1 "windows").isSome then b1
                else dictSet b1 "windows" (.obj [])
      match dictGet b2 "windows" with
      | some (.obj w) =>
        let w1 := if (dictGet w "nsis").isSome then w
                  else dictSet w "nsis" (.obj [])
        match dictGet w1 "nsis" with
        | some (.obj n) =>
          let n1 := dictSet n "installerHooks" (.str "nsis_hooks.nsi")
          some (.obj (dictSet c "bundle"
            (.obj (dictSet b2 "windows"
              (.obj (dictSet w1 "nsis" (.obj n1)))))))
        | some _ => none
        | none => none
      | some _ => none
      | none => none
    | some _ => none
    | none => none
  | _ => none

/-! ## Serialization: `json.dump(config, f, indent=2)`

`indent=2` makes the item separator `","` followed by a newline and the
current indentation, and the key separator `": "`; empty containers print
as `[]` / `\x7b\x7d`; `ensure_ascii=True` (the default) escapes every
character outside `0x20`-`0x7e` as well as the quote and backslash. -/

/-- Decimal digit characters, by table (used only with `d ≤ 9`). -/
def digitChar (d : Nat) : Char :=
  match d with
  | 0 => '0'
  | 1 => '1'
  | 2 => '2'
  | 3 => '3'
  | 4 => '4'
  | 5 => '5'
  | 6 => '6'
  | 7 => '7'
  | 8 => '8'
  | _ => '9'

/-- Lowercase hexadecimal digit characters (used only with `d ≤ 15`);
CPython formats `\uXXXX` escapes with lowercase hex. -/
def hexChar (d : Nat) : Char :=
  match d with
  | 0 => '0'
  | 1 => '1'
  | 2 => '2'
  | 3 => '3'
  | 4 => '4'
  | 5 => '5'
  | 6 => '6'
  | 7 => '7'
  | 8 => '8'
  | 9 => '9'
  | 10 => 'a'
  | 11 => 'b'
  | 12 => 'c'
  | 13 => 'd'
  | 14 => 'e'
  | _ => 'f'

/-- Four lowercase hex digits of `n % 0x10000`. -/
def hex4 (n : Nat) : List Char :=
  [hexChar (n / 4096 % 16), hexChar (n / 256 % 16),
   hexChar (n / 16 % 16), hexChar (n % 16)]

/-- Decimal digits of `n`, most significant first, written with explicit
fuel so that it reduces in the kernel (`natToChars` supplies `n + 1`,
which always suffices since `n / 10 < n`). -/
def natToCharsAux : Nat → Nat → List Char → List Char
  | 0, _, acc => acc
  | f + 1, n, acc =>
    if n < 10 then digitChar n :: acc
    else natToCharsAux f (n / 10) (digitChar (n % 10) :: acc)

/-- Decimal representation of a natural number, as Python's `repr`. -/
def natToChars (n : Nat) : List Char := natToCharsAux (n + 1) n []

/-- Decimal representation of an integer, as Python's `repr`. -/
def intToChars (i : Int) : List Char :=
  if i < 0 then '-' :: natToChars i.natAbs else natToChars i.toNat

/-- `ensure_ascii` escaping of one character: backslash and quote get
two-character escapes, printable ASCII is kept, the named control escapes
`\b \f \n \r \t` are used, every other character becomes `\uXXXX`
(a surrogate pair for code points above `0xFFFF`). -/
def escapeChar (c : Char) : List Char :=
  if c = '\\' then ['\\', '\\']
  else if c = '"' then ['\\', '"']
  else if 0x20 ≤ c.toNat ∧ c.toNat ≤ 0x7e then [c]
  else if c = '\x08' then ['\\', 'b']
  else if c = '\x0c' then ['\\', 'f']
  else if c = '\n' then ['\\', 'n']
  else if c = '\r' then ['\\', 'r']
  else if c = '\t' then ['\\', 't']
  else if c.toNat < 0x10000 then '\\' :: 'u' :: hex4 c.toNat
  else
    ('\\' :: 'u' :: hex4 (0xd800 + (c.toNat - 0x10000) / 0x400)) ++
      ('\\' :: 'u' :: hex4 (0xdc00 + (c.toNat - 0x10000) % 0x400))

/-- Escape every character of a string body. -/
def escapeChars : List Char → List Char
  | [] => []
  | c :: r => escapeChar c ++ escapeChars r

/-- A serialized JSON string: quote, escaped body, quote. -/
def dumpStr (s : String) : List Char := '"' :: (escapeChars s.data ++ ['"'])

/-- Newline plus the indentation of level `lvl` (2 spaces per level). -/
def nlIndent (lvl : Nat) : List Char := '\n' :: List.replicate (2 * lvl) ' '

mutual

/-- `json.dump` with `indent=2`, at indentation level `lvl`. -/
def dumpVal : Nat → Json → List Char
  | _, .null => ['n', 'u', 'l', 'l']
  | _, .bool true => ['t', 'r', 'u', 'e']
  | _, .bool false => ['f', 'a', 'l', 's', 'e']
  | _, .num i => intToChars i
  | _, .str s => dumpStr s
  | _, .arr [] => ['[', ']']
  | lvl, .arr (v :: r) =>
    '[' :: (nlIndent (lvl + 1) ++ dumpItems (lvl + 1) (v :: r) ++
      nlIndent lvl ++ [']'])
  | _, .obj [] => ['\x7b', '\x7d']
  | lvl, .obj ((k, v) :: r) =>
    '\x7b' :: (nlIndent (lvl + 1) ++ dumpMembers (lvl + 1) ((k, v) :: r) ++
      nlIndent lvl ++ ['\x7d'])

/-- The items of an array, separated by `,` + newline + indent. -/
def dumpItems : Nat → List Json → List Char
  | _, [] => []
  | lvl, [v] => dumpVal lvl v
  | lvl, v :: w :: r =>
    dumpVal lvl v ++ ',' :: nlIndent lvl ++ dumpItems lvl (w :: r)

/-- The members of an object, `"key": value`, separated likewise. -/
def dumpMembers : Nat → List (String × Json) → List Char
  | _, [] => []
  | lvl, [(k, v)] => dumpStr k ++ ':' :: ' ' :: dumpVal lvl v
  | lvl, (k, v) :: m :: r =>
    dumpStr k ++ ':' :: ' ' :: dumpVal lvl v ++ ',' :: nlIndent lvl ++
      dumpMembers lvl (m :: r)

end

/-- Top-level serialization (level 0), as a string. -/
def dumps (j : Json) : String := String.mk (dumpVal 0 j)

/-! ## Parsing: `json.load` / `json.loads`

A recursive-descent reading of CPython's strict JSON decoder, written with
explicit fuel (one unit per nested value, `input length + 1` always
suffices) so that it reduces in the kernel.  Two documented deviations
from CPython, neither of which any theorem depends on: numbers are
restricted to integers (floats are rejected), and `\uXXXX` escapes
denoting lone surrogates are rejected (Lean's `Char` cannot hold them);
surrogate *pairs* are combined exactly as CPython does. -/

/-- JSON whitespace (`' '`, `'\t'`, `'\n'`, `'\r'`). -/
def isWs (c : Char) : Bool := c = ' ' || c = '\t' || c = '\n' || c = '\r'

/-- Skip leading JSON whitespace. -/
def skipWs : List Char → List Char
  | [] => []
  | c :: r => if isWs c then skipWs r else c :: r

/-- Value of one hexadecimal digit (either case). -/
def hexVal (c : Char) : Option Nat :=
  if '0' ≤ c ∧ c ≤ '9' then some (c.toNat - 48)
  else if 'a' ≤ c ∧ c ≤ 'f' then some (c.toNat - 87)
  else if 'A' ≤ c ∧ c ≤ 'F' then some (c.toNat - 55)
  else none

/-- Four hex digits, as in a `\uXXXX` escape. -/
def parseHex4 : List Char → Option (Nat × List Char)
  | a :: b :: c :: d :: r =>
    match hexVal a, hexVal b, hexVal c, hexVal d with
    | some x, some y, some z, some w =>
      some (x * 4096 + y * 256 + z * 16 + w, r)
    | _, _, _, _ => none
  | _ => none

/-- The single-character escapes of the JSON grammar. -/
def simpleEscape (c : Char) : Option Char :=
  if c = '"' then some '"'
  else if c = '\\' then some '\\'
  else if c = '/' then some '/'
  else if c = 'b' then some '\x08'
  else if c = 'f' then some '\x0c'
  else if c = 'n' then some '\n'
  else if c = 'r' then some '\r'
  else if c = 't' then some '\t'
  else none

/-- Parse a string body after the opening quote, up to and including the
closing quote.  Strict mode: raw control characters are rejected.  High
and low surrogate escapes are combined into one code point. -/
def parseStringBody : Nat → List Char → Option (List Char × List Char)
  | 0, _ => none
  | f + 1, s =>
    match s with
    | [] => none
    | c :: r =>
      if c = '"' then some ([], r)
      else if c = '\\' then
        match r with
        | [] => none
        | e :: r2 =>
          if e = 'u' then
            match parseHex4 r2 with
            | none => none
            | some (n, r3) =>
              if 0xd800 ≤ n ∧ n < 0xdc00 then
                match r3 with
                | '\\' :: 'u' :: r4 =>
                  match parseHex4 r4 with
                  | none => none
                  | some (m, r5) =>
                    if 0xdc00 ≤ m ∧ m < 0xe000 then
                      (parseStringBody f r5).map (fun p =>
                        (Char.ofNat
                          (0x10000 + (n - 0xd800) * 0x400 + (m - 0xdc00)) ::
                          p.1, p.2))
                    else none
                | _ => none
              else if 0xdc00 ≤ n ∧ n < 0xe000 then none
              else (parseStringBody f r3).map (fun p =>
                (Char.ofNat n :: p.1, p.2))
          else
            match simpleEscape e with
            | some c2 => (parseStringBody f r2).map (fun p => (c2 :: p.1, p.2))
            | none => none
      else if c.toNat < 0x20 then none
      else (parseStringBody f r).map (fun p => (c :: p.1, p.2))

/-- Value of one decimal digit character. -/
def digitVal (c : Char) : Nat := c.toNat - 48

/-- Parse a natural number: a maximal nonempty digit run, rejecting
leading zeros (as the decoder's number regular expression does). -/
def parseNatChars (s : List Char) : Option (Nat × List Char) :=
  match s.takeWhile (fun c => c.isDigit) with
  | [] => none
  | [d] => some (digitVal d, s.dropWhile (fun c => c.isDigit))
  | d :: _ :: _ =>
    if d = '0' then none
    else
      some ((s.takeWhile (fun c => c.isDigit)).foldl
        (fun a c => a * 10 + digitVal c) 0,
        s.dropWhile (fun c => c.isDigit))

/-- Parse an (integer) JSON number with optional leading minus. -/
def parseNumber (s : List Char) : Option (Json × List Char) :=
  match s with
  | [] => none
  | c :: r =>
    if c = '-' then
      (parseNatChars r).map (fun p => (Json.num (-(p.1 : Int)), p.2))
    else
      (parseNatChars (c :: r)).map (fun p => (Json.num (p.1 : Int), p.2))

/-- `dict(pairs)`: Python dict construction from a key-value list — later
values win, the first occurrence fixes the position. -/
def buildDict (pairs : List (String × Json)) : List (String × Json) :=
  pairs.foldl (fun d p => dictSet d p.1 p.2) []

mutual

/-- Parse one JSON value (after skipping leading whitespace), returning it
together with the unconsumed suffix. -/
def parseValue : Nat → List Char → Option (Json × List Char)
  | 0, _ => none
  | f + 1, s =>
    match skipWs s with
    | [] => none
    | c :: r =>
      if c = '\x7b' then
        match skipWs r with
        | [] => none
        | c2 :: r2 =>
          if c2 = '\x7d' then some (.obj [], r2)
          else (parseMembers f (c2 :: r2)).map (fun p =>
            (Json.obj (buildDict p.1), p.2))
      else if c = '[' then
        match skipWs r with
        | [] => none
        | c2 :: r2 =>
          if c2 = ']' then some (.arr [], r2)
          else (parseItems f (c2 :: r2)).map (fun p => (Json.arr p.1, p.2))
      else if c = '"' then
        (parseStringBody (r.length + 1) r).map (fun p =>
          (Json.str (String.mk p.1), p.2))
      else if c = 't' then
        match r with
        | 'r' :: 'u' :: 'e' :: r2 => some (.bool true, r2)
        | _ => none
      else if c = 'f' then
        match r with
        | 'a' :: 'l' :: 's' :: 'e' :: r2 => some (.bool false, r2)
        | _ => none
      else if c = 'n' then
        match r with
        | 'u' :: 'l' :: 'l' :: r2 => some (.null, r2)
        | _ => none
      else parseNumber (c :: r)

/-- Parse the members of a non-empty object, after the opening brace,
consuming the closing brace. -/
def parseMembers : Nat → List Char → Option (List (String × Json) × List Char)
  | 0, _ => none
  | f + 1, s =>
    match skipWs s with
    | [] => none
    | c :: r =>
      if c = '"' then
        match parseStringBody (r.length + 1) r with
        | none => none
        | some (k, r2) =>
          match skipWs r2 with
          | [] => none
          | c2 :: r3 =>
            if c2 = ':' then
              match parseValue f r3 with
              | none => none
              | some (v, r4) =>
                match skipWs r4 with
                | [] => none
                | c3 :: r5 =>
                  if c3 = ',' then
                    (parseMembers f r5).map (fun p =>
                      ((String.mk k, v) :: p.1, p.2))
                  else if c3 = '\x7d' then some ([(String.mk k, v)], r5)
                  else none
            else none
      else none

/-- Parse the items of a non-empty array, consuming the closing bracket. -/
def parseItems : Nat → List Char → Option (List Json × List Char)
  | 0, _ => none
  | f + 1, s =>
    match parseValue f s with
    | none => none
    | some (v, r) =>
      match skipWs r with
      | [] => none
      | c :: r2 =>
        if c = ',' then (parseItems f r2).map (fun p => (v :: p.1, p.2))
        else if c = ']' then some ([v], r2)
        else none

end

/-- `json.loads` on a character list: parse one document, then require
only whitespace to remain. -/
def loadsChars (s : List Char) : Option Json :=
  match parseValue (s.length + 1) s with
  | none => none
  | some (v, rest) => if skipWs rest = [] then some v else none

/-- `json.loads` / `json.load` on the file text. -/
def loads (s : String) : Option Json := loadsChars s.data

/-! ## The script as a whole -/

/-- The two files the script touches; `none` models a missing file. -/
structure FS where
  configFile : Option String
  hooksFile : Option String
deriving DecidableEq, Repr

/-- One run of `update_windows_config.py` over the file state: write the
hook file first (lines 26-27), then load the configuration (lines 29-30),
mutate it (lines 34-46), and rewrite it with `indent=2` plus a final
newline (lines 48-50).  The boolean records whether the run terminated
normally (`false` = an uncaught exception after the hook-file write). -/
def runScript (fs : FS) : FS × Bool :=
  let fs1 : FS := { fs with hooksFile := some nsis_hook_content }
  match fs.configFile with
  | none => (fs1, false)
  | some s =>
    match loads s with
    | none => (fs1, false)
    | some config =>
      match update_config config with
      | none => (fs1, false)
      | some config2 =>
        ({ fs1 with configFile := some (dumps config2 ++ "\n") }, true)

/-- Read a value at a key path (each step through an object member). -/
def getPath (j : Json) : List String → Option Json
  | [] => some j
  | k :: rest =>
    match j with
    | .obj m =>
      match dictGet m k with
      | some v => getPath v rest
      | none => none
    | _ => none

/-- No key occurs twice (Python dicts always satisfy this). -/
def nodupKeys : List (String × Json) → Bool
  | [] => true
  | (k, _) :: r => !(r.any (fun p => p.1 = k)) && nodupKeys r

mutual

/-- Well-formedness: every object in the document has pairwise distinct
keys.  Every value built by `json.load` satisfies this. -/
def wfJson : Json → Bool
  | .null => true
  | .bool _ => true
  | .num _ => true
  | .str _ => true
  | .arr l => wfList l
  | .obj m => nodupKeys m && wfMembers m

def wfList : List Json → Bool
  | [] => true
  | v :: r => wfJson v && wfList r

def wfMembers : List (String × Json) → Bool
  | [] => true
  | (_, v) :: r => wfJson v && wfMembers r

end

/-! ## Auxiliary definitions for the development

Shape predicates, a termination measure for the round-trip proof, and the
concrete inputs the witnesses run on. -/

/-- The input shape on which the mutation block runs to completion, given
a top-level `"bundle"` mapping: `windows`, when present, is a mapping, and
its `nsis`, when present, is a mapping. -/
def windows_nsis_ok (b : List (String × Json)) : Bool :=
  match dictGet b "windows" with
  | none => true
  | some (.obj w) =>
    match dictGet w "nsis" with
    | none => true
    | some (.obj _) => true
    | some _ => false
  | some _ => false

/-- Holds when the list does not start with a character satisfying `p`
(so a maximal `p`-run ending just before it is not extended). -/
def headNot (p : Char → Bool) : List Char → Bool
  | [] => true
  | c :: _ => !p c

mutual

/-- Fuel demand of a document: one unit per value plus one per
container entry.  `parseValue` succeeds on serialized input given at
least this much fuel. -/
def sizeJ : Json → Nat
  | .null => 1
  | .bool _ => 1
  | .num _ => 1
  | .str _ => 1
  | .arr l => 1 + sizeA l
  | .obj m => 1 + sizeM m

def sizeA : List Json → Nat
  | [] => 0
  | v :: r => 1 + sizeJ v + sizeA r

def sizeM : List (String × Json) → Nat
  | [] => 0
  | (_, v) :: r => 1 + sizeJ v + sizeM r

end

/-- The minimal valid document: `\x7b"bundle": \x7b\x7d\x7d`. -/
def cfgMin : Json := .obj [("bundle", .obj [])]

/-- What the mutation block produces on `cfgMin`. -/
def cfgMinOut : Json :=
  .obj [("bundle", .obj
    [("resources", .arr resources_list),
     ("windows", .obj [("nsis", .obj
       [("installerHooks", .str "nsis_hooks.nsi")])])])]

/-- A file state holding the document `\x7b\x7d`. -/
def fsEmptyObj : FS := { configFile := some "\x7b\x7d", hooksFile := none }

/-- A file state holding the same document with extra whitespace. -/
def fsEmptyObjWs : FS :=
  { configFile := some " \x7b\x7d ", hooksFile := some "x" }

/-- A file state holding the minimal document `\x7b"bundle": \x7b\x7d\x7d`. -/
def fsMin : FS :=
  { configFile := some "\x7b\"bundle\": \x7b\x7d\x7d", hooksFile := none }

/-! ## Association-list (Python dict) lemmas -/

theorem dictGet_dictSet_self (d : List (String × Json)) (k : String) (v : Json) :
    dictGet (dictSet d k v) k = some v := by
  induction d with
  | nil => simp [dictGet, dictSet]
  | cons p r ih =>
    obtain ⟨k2, v2⟩ := p
    by_cases h : k2 = k
    · simp [dictGet, dictSet, h]
    · simp [dictGet, dictSet, h, ih]

theorem dictGet_dictSet_ne (d : List (String × Json)) (k k' : String) (v : Json)
    (h : k' ≠ k) : dictGet (dictSet d k v) k' = dictGet d k' := by
  induction d with
  | nil => simp [dictGet, dictSet, Ne.symm h]
  | cons p r ih =>
    obtain ⟨k2, v2⟩ := p
    by_cases h2 : k2 = k
    · subst h2
      have hne : ¬(k2 = k') := fun hh => h hh.symm
      simp only [dictSet, if_pos rfl, dictGet, if_neg hne]
    · simp only [dictSet, if_neg h2, dictGet, ih]

theorem dictSet_of_mem (d : List (String × Json)) (k : String) (v : Json)
    (hn : nodupKeys d = true) (hm : dictGet d k = some v) :
    dictSet d k v = d := by
  induction d with
  | nil => simp [dictGet] at hm
  | cons p r ih =>
    obtain ⟨k2, v2⟩ := p
    simp [nodupKeys] at hn
    by_cases h : k2 = k
    · subst h
      simp [dictGet] at hm
      simp [dictSet, hm]
    · simp [dictGet, h] at hm
      simp [dictSet, h, ih hn.2 hm]

theorem dictSet_of_not_mem (d : List (String × Json)) (k : String) (v : Json)
    (hm : dictGet d k = none) :
    dictSet d k v = d ++ [(k, v)] := by
  induction d with
  | nil => simp [dictSet]
  | cons p r ih =>
    obtain ⟨k2, v2⟩ := p
    by_cases h : k2 = k
    · simp [dictGet, h] at hm
    · simp [dictGet, h] at hm
      simp [dictSet, h, ih hm]

theorem any_key_dictSet_ne (d : List (String × Json)) (k x : String) (v : Json)
    (h : x ≠ k) :
    (dictSet d k v).any (fun p => p.1 = x) = d.any (fun p => p.1 = x) := by
  induction d with
  | nil => simp [dictSet, Ne.symm h]
  | cons p r ih =>
    obtain ⟨k2, v2⟩ := p
    by_cases h2 : k2 = k
    · simp [dictSet, h2]
    · simp only [dictSet, if_neg h2, List.any_cons, ih]

theorem nodupKeys_dictSet (d : List (String × Json)) (k : String) (v : Json)
    (hn : nodupKeys d = true) : nodupKeys (dictSet d k v) = true := by
  induction d with
  | nil => simp [dictSet, nodupKeys]
  | cons p r ih =>
    obtain ⟨k2, v2⟩ := p
    simp only [nodupKeys, Bool.and_eq_true, Bool.not_eq_true'] at hn
    by_cases h : k2 = k
    · subst h
      simp only [dictSet, if_pos rfl, nodupKeys, Bool.and_eq_true,
        Bool.not_eq_true']
      exact ⟨hn.1, hn.2⟩
    · simp only [dictSet, if_neg h, nodupKeys, Bool.and_eq_true,
        Bool.not_eq_true']
      refine ⟨?_, ih hn.2⟩
      rw [any_key_dictSet_ne r k k2 v h]
      exact hn.1

theorem wfMembers_dictGet (d : List (String × Json)) (k : String) (v : Json)
    (hw : wfMembers d = true) (h : dictGet d k = some v) : wfJson v = true := by
  induction d with
  | nil => simp [dictGet] at h
  | cons p r ih =>
    obtain ⟨k2, v2⟩ := p
    simp only [wfMembers, Bool.and_eq_true] at hw
    by_cases h2 : k2 = k
    · simp only [dictGet, if_pos h2, Option.some.injEq] at h
      exact h ▸ hw.1
    · simp only [dictGet, if_neg h2] at h
      exact ih hw.2 h

theorem wfMembers_dictSet (d : List (String × Json)) (k : String) (v : Json)
    (hw : wfMembers d = true) (hv : wfJson v = true) :
    wfMembers (dictSet d k v) = true := by
  induction d with
  | nil => simp [dictSet, wfMembers, hv]
  | cons p r ih =>
    obtain ⟨k2, v2⟩ := p
    simp only [wfMembers, Bool.and_eq_true] at hw
    by_cases h2 : k2 = k
    · simp only [dictSet, if_pos h2, wfMembers, Bool.and_eq_true]
      exact ⟨hv, hw.2⟩
    · simp only [dictSet, if_neg h2, wfMembers, Bool.and_eq_true]
      exact ⟨hw.1, ih hw.2⟩

/-- Unpacking a successful run of the mutation block: the input shape it
requires and the exact output document it builds. -/
theorem update_config_eq_some (config out : Json)
    (h : update_config config = some out) :
    ∃ c b b2 w w1 n,
      config = .obj c ∧
      dictGet c "bundle" = some (.obj b) ∧
      b2 = (if (dictGet (dictSet b "resources" (.arr resources_list))
                  "windows").isSome
            then dictSet b "resources" (.arr resources_list)
            else dictSet (dictSet b "resources" (.arr resources_list))
                   "windows" (.obj [])) ∧
      dictGet b2 "windows" = some (.obj w) ∧
      w1 = (if (dictGet w "nsis").isSome then w
            else dictSet w "nsis" (.obj [])) ∧
      dictGet w1 "nsis" = some (.obj n) ∧
      out = .obj (dictSet c "bundle"
        (.obj (dictSet b2 "windows"
          (.obj (dictSet w1 "nsis"
            (.obj (dictSet n "installerHooks" (.str "nsis_hooks.nsi")))))))) := by
  cases config with
  | obj c =>
    simp only [update_config] at h
    split at h
    case _ b hb =>
      split at h
      case _ w hw =>
        split at h
        case _ n hn =>
          exact ⟨c, b, _, w, _, n, rfl, hb, rfl, hw, rfl, hn,
            (Option.some.injEq _ _ ▸ h).symm⟩
        case _ => exact absurd h (by simp)
        case _ => exact absurd h (by simp)
      case _ => exact absurd h (by simp)
      case _ => exact absurd h (by simp)
    case _ => exact absurd h (by simp)
    case _ => exact absurd h (by simp)
  | null => exact absurd h (by simp [update_config])
  | bool b => exact absurd h (by simp [update_config])
  | num n => exact absurd h (by simp [update_config])
  | str s => exact absurd h (by simp [update_config])
  | arr l => exact absurd h (by simp [update_config])

theorem update_config_obj_some (c b : List (String × Json))
    (hb : dictGet c "bundle" = some (.obj b))
    (hok : windows_nsis_ok b = true) :
    ∃ out, update_config (.obj c) = some out := by
  have hwr : dictGet (dictSet b "resources" (.arr resources_list)) "windows"
      = dictGet b "windows" :=
    dictGet_dictSet_ne b "resources" "windows" _ (by decide)
  simp only [update_config, hb]
  rcases hw : dictGet b "windows" with _ | vw
  · rw [hw] at hwr
    simp only [hwr, Option.isSome_none, Bool.false_eq_true, if_false,
      dictGet_dictSet_self]
    exact ⟨_, rfl⟩
  · rw [hw] at hwr
    cases vw with
    | obj w =>
      simp only [windows_nsis_ok, hw] at hok
      simp only [hwr, Option.isSome_some, if_true]
      rcases hn : dictGet w "nsis" with _ | vn
      · simp only [hn, Option.isSome_none, Bool.false_eq_true, if_false,
          dictGet_dictSet_self]
        exact ⟨_, rfl⟩
      · rw [hn] at hok
        cases vn with
        | obj n =>
          simp only [hn, Option.isSome_some, if_true]
          exact ⟨_, rfl⟩
        | null => simp at hok
        | bool b2 => simp at hok
        | num n2 => simp at hok
        | str s2 => simp at hok
        | arr l2 => simp at hok
    | null => simp [windows_nsis_ok, hw] at hok
    | bool b2 => simp [windows_nsis_ok, hw] at hok
    | num n2 => simp [windows_nsis_ok, hw] at hok
    | str s2 => simp [windows_nsis_ok, hw] at hok
    | arr l2 => simp [windows_nsis_ok, hw] at hok

theorem wf_obj_dictSet (d : List (String × Json)) (k : String) (v : Json)
    (hn : nodupKeys d = true) (hm : wfMembers d = true) (hv : wfJson v = true) :
    wfJson (.obj (dictSet d k v)) = true := by
  simp only [wfJson, Bool.and_eq_true]
  exact ⟨nodupKeys_dictSet d k v hn, wfMembers_dictSet d k v hm hv⟩

theorem wfJson_update_config (config out : Json) (hwf : wfJson config = true)
    (h : update_config config = some out) : wfJson out = true := by
  obtain ⟨c, b, b2, w, w1, n, rfl, hb, hb2, hw2, hw1, hn, rfl⟩ :=
    update_config_eq_some _ _ h
  simp only [wfJson, Bool.and_eq_true] at hwf
  have hob : wfJson (.obj b) = true := wfMembers_dictGet c "bundle" _ hwf.2 hb
  simp only [wfJson, Bool.and_eq_true] at hob
  have hb1n : nodupKeys (dictSet b "resources" (.arr resources_list)) = true :=
    nodupKeys_dictSet _ _ _ hob.1
  have hb1m : wfMembers (dictSet b "resources" (.arr resources_list)) = true :=
    wfMembers_dictSet _ _ _ hob.2 (by decide)
  have hb2n : nodupKeys b2 = true := by
    rw [hb2]
    split
    · exact hb1n
    · exact nodupKeys_dictSet _ _ _ hb1n
  have hb2m : wfMembers b2 = true := by
    rw [hb2]
    split
    · exact hb1m
    · exact wfMembers_dictSet _ _ _ hb1m (by decide)
  have how : wfJson (.obj w) = true := wfMembers_dictGet b2 "windows" _ hb2m hw2
  simp only [wfJson, Bool.and_eq_true] at how
  have hw1n : nodupKeys w1 = true := by
    rw [hw1]
    split
    · exact how.1
    · exact nodupKeys_dictSet _ _ _ how.1
  have hw1m : wfMembers w1 = true := by
    rw [hw1]
    split
    · exact how.2
    · exact wfMembers_dictSet _ _ _ how.2 (by decide)
  have hon : wfJson (.obj n) = true := wfMembers_dictGet w1 "nsis" _ hw1m hn
  simp only [wfJson, Bool.and_eq_true] at hon
  have h1 : wfJson (.obj (dictSet n "installerHooks" (.str "nsis_hooks.nsi")))
      = true := wf_obj_dictSet _ _ _ hon.1 hon.2 (by decide)
  have h2 := wf_obj_dictSet w1 "nsis" _ hw1n hw1m h1
  have h3 := wf_obj_dictSet b2 "windows" _ hb2n hb2m h2
  exact wf_obj_dictSet c "bundle" _ hwf.1 hwf.2 h3

theorem update_config_paths (config out : Json)
    (h : update_config config = some out) :
    getPath out ["bundle", "resources"] = some (.arr resources_list) ∧
    ∃ wOut nOut,
      getPath out ["bundle", "windows"] = some (.obj wOut) ∧
      dictGet wOut "nsis" = some (.obj nOut) ∧
      dictGet nOut "installerHooks" = some (.str "nsis_hooks.nsi") := by
  obtain ⟨c, b, b2, w, w1, n, rfl, hb, hb2, hw2, hw1, hn, rfl⟩ :=
    update_config_eq_some _ _ h
  have hres : dictGet b2 "resources" = some (.arr resources_list) := by
    rw [hb2]
    split
    · exact dictGet_dictSet_self ..
    · rw [dictGet_dictSet_ne _ _ _ _ (by decide)]
      exact dictGet_dictSet_self ..
  have e1 : dictGet (dictSet b2 "windows"
      (.obj (dictSet w1 "nsis"
        (.obj (dictSet n "installerHooks" (.str "nsis_hooks.nsi"))))))
      "resources" = dictGet b2 "resources" :=
    dictGet_dictSet_ne _ _ _ _ (by decide)
  refine ⟨?_, dictSet w1 "nsis"
      (.obj (dictSet n "installerHooks" (.str "nsis_hooks.nsi"))),
      dictSet n "installerHooks" (.str "nsis_hooks.nsi"), ?_, ?_, ?_⟩
  · simp only [getPath, dictGet_dictSet_self, e1, hres]
  · simp only [getPath, dictGet_dictSet_self]
  · exact dictGet_dictSet_self ..
  · exact dictGet_dictSet_self ..

theorem runScript_eq_true (fs fs1 : FS) (h : runScript fs = (fs1, true)) :
    ∃ s config out, fs.configFile = some s ∧ loads s = some config ∧
      update_config config = some out ∧
      fs1 = { configFile := some (dumps out ++ "\n"),
              hooksFile := some nsis_hook_content } := by
  unfold runScript at h
  split at h
  · exact absurd (congrArg Prod.snd h) (by simp)
  case _ s hs =>
    split at h
    · exact absurd (congrArg Prod.snd h) (by simp)
    case _ config hl =>
      split at h
      · exact absurd (congrArg Prod.snd h) (by simp)
      case _ out hu =>
        refine ⟨s, config, out, hs, hl, hu, ?_⟩
        have := congrArg Prod.fst h
        simpa using this.symm

theorem runScript_of_success (fs : FS) (s : String) (config out : Json)
    (hs : fs.configFile = some s) (hl : loads s = some config)
    (hu : update_config config = some out) :
    runScript fs = ({ configFile := some (dumps out ++ "\n"),
                      hooksFile := some nsis_hook_content }, true) := by
  simp [runScript, hs, hl, hu]

theorem runScript_hooksFile (fs : FS) :
    (runScript fs).1.hooksFile = some nsis_hook_content := by
  unfold runScript
  split
  · rfl
  split
  · rfl
  split
  · rfl
  · rfl

/-! ## Round-trip: whitespace, digits and numbers -/

theorem skipWs_cons_ws (c : Char) (r : List Char) (h : isWs c = true) :
    skipWs (c :: r) = skipWs r := by
  simp [skipWs, h]

theorem skipWs_cons_not_ws (c : Char) (r : List Char) (h : isWs c = false) :
    skipWs (c :: r) = c :: r := by
  simp [skipWs, h]

theorem skipWs_append_allWs (pre s : List Char) (h : pre.all isWs = true) :
    skipWs (pre ++ s) = skipWs s := by
  induction pre with
  | nil => rfl
  | cons c r ih =>
    simp only [List.all_cons, Bool.and_eq_true] at h
    rw [List.cons_append, skipWs_cons_ws _ _ h.1, ih h.2]

theorem allWs_nlIndent (lvl : Nat) : (nlIndent lvl).all isWs = true := by
  simp only [nlIndent, List.all_cons, Bool.and_eq_true]
  refine ⟨by decide, ?_⟩
  induction 2 * lvl with
  | zero => rfl
  | succ m ih =>
    rw [List.replicate_succ, List.all_cons]
    simp only [Bool.and_eq_true]
    exact ⟨by decide, ih⟩

theorem skipWs_nlIndent (lvl : Nat) (s : List Char) :
    skipWs (nlIndent lvl ++ s) = skipWs s :=
  skipWs_append_allWs _ _ (allWs_nlIndent lvl)

theorem digitChar_isDigit (d : Nat) : (digitChar d).isDigit = true := by
  unfold digitChar
  split <;> decide

theorem digitChar_not_ws (d : Nat) : isWs (digitChar d) = false := by
  unfold digitChar
  split <;> decide

theorem digitVal_digitChar (d : Nat) (h : d < 10) :
    digitVal (digitChar d) = d := by
  interval_cases d <;> decide

theorem digitChar_ne_zero_char (d : Nat) (h1 : 1 ≤ d) (h2 : d < 10) :
    digitChar d ≠ '0' := by
  interval_cases d <;> decide

theorem hexVal_hexChar (d : Nat) (h : d < 16) : hexVal (hexChar d) = some d := by
  interval_cases d <;> decide

theorem parseHex4_hex4 (n : Nat) (r : List Char) (h : n < 65536) :
    parseHex4 (hex4 n ++ r) = some (n, r) := by
  have h1 : n / 4096 % 16 < 16 := Nat.mod_lt _ (by omega)
  have h2 : n / 256 % 16 < 16 := Nat.mod_lt _ (by omega)
  have h3 : n / 16 % 16 < 16 := Nat.mod_lt _ (by omega)
  have h4 : n % 16 < 16 := Nat.mod_lt _ (by omega)
  simp only [hex4, List.cons_append, List.nil_append, parseHex4,
    hexVal_hexChar _ h1, hexVal_hexChar _ h2, hexVal_hexChar _ h3,
    hexVal_hexChar _ h4, Option.some.injEq, Prod.mk.injEq]
  refine ⟨by omega, trivial⟩

theorem natToCharsAux_eq (n : Nat) : ∀ (f : Nat) (acc : List Char), n < f →
    natToCharsAux f n acc = natToChars n ++ acc := by
  induction n using Nat.strong_induction_on with
  | _ n ih =>
    intro f acc hf
    match f with
    | f + 1 =>
      by_cases h10 : n < 10
      · simp only [natToCharsAux, if_pos h10, natToChars]
        rfl
      · simp only [natToCharsAux, if_neg h10, natToChars]
        rw [ih (n / 10) (by omega) f (digitChar (n % 10) :: acc) (by omega),
          ih (n / 10) (by omega) n [digitChar (n % 10)] (by omega)]
        simp

theorem natToChars_eq (n : Nat) :
    natToChars n = if n < 10 then [digitChar n]
      else natToChars (n / 10) ++ [digitChar (n % 10)] := by
  by_cases h : n < 10
  · simp [natToChars, natToCharsAux, h]
  · rw [if_neg h]
    show natToCharsAux (n + 1) n [] = _
    simp only [natToCharsAux, if_neg h]
    exact natToCharsAux_eq (n / 10) n [digitChar (n % 10)] (by omega)

theorem natToChars_ne_nil (n : Nat) : natToChars n ≠ [] := by
  rw [natToChars_eq]
  split
  · simp
  · simp

theorem natToChars_all_digits (n : Nat) :
    (natToChars n).all Char.isDigit = true := by
  induction n using Nat.strong_induction_on with
  | _ n ih =>
    rw [natToChars_eq]
    split
    · simp [digitChar_isDigit]
    · rw [List.all_append]
      simp only [Bool.and_eq_true]
      exact ⟨ih (n / 10) (by omega), by simp [digitChar_isDigit]⟩

theorem natToChars_head_ne_zero (n : Nat) (h : 0 < n) :
    (natToChars n).head? ≠ some '0' := by
  induction n using Nat.strong_induction_on with
  | _ n ih =>
    rw [natToChars_eq]
    split
    · simpa using digitChar_ne_zero_char n h (by omega)
    · rename_i h10
      rw [List.head?_append_of_ne_nil _ (natToChars_ne_nil (n / 10))]
      exact ih (n / 10) (by omega) (by omega)

theorem natToChars_two_le_length (n : Nat) (h : 10 ≤ n) :
    2 ≤ (natToChars n).length := by
  rw [natToChars_eq, if_neg (by omega), List.length_append]
  have := natToChars_ne_nil (n / 10)
  have : 1 ≤ (natToChars (n / 10)).length := by
    cases hh : natToChars (n / 10) with
    | nil => exact absurd hh (natToChars_ne_nil _)
    | cons a b => simp
  simp only [List.length_cons, List.length_nil]
  omega

theorem foldl_natToChars (n : Nat) : ∀ a : Nat,
    (natToChars n).foldl (fun a c => a * 10 + digitVal c) a =
      a * 10 ^ (natToChars n).length + n := by
  induction n using Nat.strong_induction_on with
  | _ n ih =>
    intro a
    rw [natToChars_eq]
    split
    · rename_i h10
      simp [List.foldl, digitVal_digitChar n h10]
    · rename_i h10
      rw [List.foldl_append, ih (n / 10) (by omega) a]
      simp only [List.foldl, List.length_append, List.length_cons,
        List.length_nil]
      rw [digitVal_digitChar (n % 10) (by omega)]
      have hp : 10 ^ ((natToChars (n / 10)).length + (0 + 1)) =
          10 ^ (natToChars (n / 10)).length * 10 := by
        rw [pow_succ]
      rw [hp]
      have := Nat.div_add_mod n 10
      ring_nf
      omega

theorem takeWhile_append_all (p : Char → Bool) (xs rest : List Char)
    (hall : xs.all p = true) (hr : headNot p rest = true) :
    (xs ++ rest).takeWhile p = xs := by
  induction xs with
  | nil =>
    cases rest with
    | nil => rfl
    | cons c r =>
      simp only [headNot, Bool.not_eq_true'] at hr
      simp [List.takeWhile, hr]
  | cons x xs ih =>
    simp only [List.all_cons, Bool.and_eq_true] at hall
    simp [List.takeWhile, hall.1, ih hall.2]

theorem dropWhile_append_all (p : Char → Bool) (xs rest : List Char)
    (hall : xs.all p = true) (hr : headNot p rest = true) :
    (xs ++ rest).dropWhile p = rest := by
  induction xs with
  | nil =>
    cases rest with
    | nil => rfl
    | cons c r =>
      simp only [headNot, Bool.not_eq_true'] at hr
      simp [List.dropWhile, hr]
  | cons x xs ih =>
    simp only [List.all_cons, Bool.and_eq_true] at hall
    simp [List.dropWhile, hall.1, ih hall.2]

theorem parseNatChars_natToChars (n : Nat) (rest : List Char)
    (hr : headNot Char.isDigit rest = true) :
    parseNatChars (natToChars n ++ rest) = some (n, rest) := by
  have htake : (natToChars n ++ rest).takeWhile (fun c => c.isDigit) =
      natToChars n := takeWhile_append_all _ _ _ (natToChars_all_digits n) hr
  have hdrop : (natToChars n ++ rest).dropWhile (fun c => c.isDigit) =
      rest := dropWhile_append_all _ _ _ (natToChars_all_digits n) hr
  by_cases h10 : n < 10
  · have hn : natToChars n = [digitChar n] := by
      rw [natToChars_eq, if_pos h10]
    unfold parseNatChars
    rw [htake, hdrop, hn]
    simp [digitVal_digitChar n h10]
  · obtain ⟨d, d2, t, hn⟩ : ∃ d d2 t, natToChars n = d :: d2 :: t := by
      have h2 := natToChars_two_le_length n (by omega)
      match hh : natToChars n with
      | [] => rw [hh] at h2; simp at h2
      | [a] => rw [hh] at h2; simp at h2
      | a :: a2 :: b2 => exact ⟨a, a2, b2, rfl⟩
    have hd0 : ¬(d = '0') := by
      intro hd
      have := natToChars_head_ne_zero n (by omega)
      rw [hn, hd] at this
      simp at this
    unfold parseNatChars
    rw [htake, hdrop, hn]
    simp only [if_neg hd0]
    have hfold := foldl_natToChars n 0
    rw [hn] at hfold
    simp only [Nat.zero_mul, Nat.zero_add] at hfold
    simp [hfold]

theorem parseNumber_intToChars (i : Int) (rest : List Char)
    (hr : headNot Char.isDigit rest = true) :
    parseNumber (intToChars i ++ rest) = some (.num i, rest) := by
  unfold intToChars
  by_cases h : i < 0
  · rw [if_pos h, List.cons_append]
    have hstep : parseNumber ('-' :: (natToChars i.natAbs ++ rest)) =
        (parseNatChars (natToChars i.natAbs ++ rest)).map
          (fun p => (Json.num (-(p.1 : Int)), p.2)) := by
      simp [parseNumber]
    rw [hstep, parseNatChars_natToChars _ _ hr]
    show some (Json.num (-((i.natAbs : Nat) : Int)), rest) =
      some (Json.num i, rest)
    have hcast : -((i.natAbs : Nat) : Int) = i := by omega
    rw [hcast]
  · rw [if_neg h]
    obtain ⟨d, t, hn⟩ : ∃ d t, natToChars i.toNat = d :: t := by
      cases hh : natToChars i.toNat with
      | nil => exact absurd hh (natToChars_ne_nil _)
      | cons a b => exact ⟨a, b, rfl⟩
    have hdd : d.isDigit = true := by
      have := natToChars_all_digits i.toNat
      rw [hn] at this
      simp only [List.all_cons, Bool.and_eq_true] at this
      exact this.1
    have hdm : ¬(d = '-') := by
      intro hd
      rw [hd] at hdd
      simp at hdd
    rw [hn, List.cons_append]
    have hstep : parseNumber (d :: (t ++ rest)) =
        (parseNatChars (d :: (t ++ rest))).map
          (fun p => (Json.num (p.1 : Int), p.2)) := by
      simp [parseNumber, hdm]
    rw [hstep, ← List.cons_append, ← hn, parseNatChars_natToChars _ _ hr]
    show some (Json.num ((i.toNat : Nat) : Int), rest) =
      some (Json.num i, rest)
    have hcast : ((i.toNat : Nat) : Int) = i := by omega
    rw [hcast]

/-! ## Round-trip: strings -/

theorem char_not_surrogate (c : Char) :
    c.toNat < 55296 ∨ 57343 < c.toNat := by
  rcases c.valid with h | h
  · exact Or.inl h
  · exact Or.inr h.1

theorem char_lt_max (c : Char) : c.toNat < 1114112 := by
  rcases c.valid with h | h
  · exact Nat.lt_trans h (by decide)
  · exact h.2

theorem one_le_length_escapeChar (c : Char) : 1 ≤ (escapeChar c).length := by
  unfold escapeChar
  repeat' split
  all_goals simp

theorem length_le_escapeChars (s : List Char) :
    s.length ≤ (escapeChars s).length := by
  induction s with
  | nil => simp [escapeChars]
  | cons c r ih =>
    simp only [escapeChars, List.length_cons, List.length_append]
    have := one_le_length_escapeChar c
    omega

theorem psb_two_char (f : Nat) (e : Char) (c2 : Char) (X : List Char)
    (he : simpleEscape e = some c2) :
    parseStringBody (f + 1) ('\\' :: e :: X) =
      (parseStringBody f X).map (fun p => (c2 :: p.1, p.2)) := by
  have heu : ¬(e = 'u') := by
    intro h
    subst h
    simp [simpleEscape] at he
  simp [parseStringBody, heu, he]

theorem psb_literal (f : Nat) (c : Char) (X : List Char) (h2 : ¬c = '"')
    (h1 : ¬c = '\\') (h0 : ¬c.toNat < 32) :
    parseStringBody (f + 1) (c :: X) =
      (parseStringBody f X).map (fun p => (c :: p.1, p.2)) := by
  simp [parseStringBody, h2, h1, h0]

theorem psb_unicode (f : Nat) (n : Nat) (X : List Char) (hn : n < 65536)
    (h1 : ¬(55296 ≤ n ∧ n < 56320)) (h2 : ¬(56320 ≤ n ∧ n < 57344)) :
    parseStringBody (f + 1) ('\\' :: 'u' :: (hex4 n ++ X)) =
      (parseStringBody f X).map (fun p => (Char.ofNat n :: p.1, p.2)) := by
  have hph := parseHex4_hex4 n X hn
  simp [parseStringBody, hph, h1, h2]

theorem psb_surrogate_pair (f : Nat) (n m : Nat) (X : List Char)
    (hn : 55296 ≤ n ∧ n < 56320) (hm : 56320 ≤ m ∧ m < 57344) :
    parseStringBody (f + 1)
        ('\\' :: 'u' :: (hex4 n ++ ('\\' :: 'u' :: (hex4 m ++ X)))) =
      (parseStringBody f X).map (fun p =>
        (Char.ofNat (65536 + (n - 55296) * 1024 + (m - 56320)) :: p.1,
          p.2)) := by
  have hph1 := parseHex4_hex4 n ('\\' :: 'u' :: (hex4 m ++ X)) (by omega)
  have hph2 := parseHex4_hex4 m X (by omega)
  simp [parseStringBody, hph1, hph2, hn, hm]

theorem psb_escapeChar (c : Char) (f : Nat) (X : List Char) :
    parseStringBody (f + 1) (escapeChar c ++ X) =
      (parseStringBody f X).map (fun p => (c :: p.1, p.2)) := by
  unfold escapeChar
  by_cases h1 : c = '\\'
  · rw [if_pos h1, List.cons_append, List.cons_append, List.nil_append,
      psb_two_char f '\\' '\\' X (by simp [simpleEscape]), h1]
  · rw [if_neg h1]
    by_cases h2 : c = '"'
    · rw [if_pos h2, List.cons_append, List.cons_append, List.nil_append,
        psb_two_char f '"' '"' X (by simp [simpleEscape]), h2]
    · rw [if_neg h2]
      by_cases h3 : 32 <= c.toNat ∧ c.toNat <= 126
      · rw [if_pos h3, List.cons_append, List.nil_append,
          psb_literal f c X h2 h1 (by omega)]
      · rw [if_neg h3]
        by_cases h4 : c = '\x08'
        · rw [if_pos h4, List.cons_append, List.cons_append, List.nil_append,
            psb_two_char f 'b' '\x08' X (by simp [simpleEscape]), h4]
        · rw [if_neg h4]
          by_cases h5 : c = '\x0c'
          · rw [if_pos h5, List.cons_append, List.cons_append,
              List.nil_append,
              psb_two_char f 'f' '\x0c' X (by simp [simpleEscape]), h5]
          · rw [if_neg h5]
            by_cases h6 : c = '\n'
            · rw [if_pos h6, List.cons_append, List.cons_append,
                List.nil_append,
                psb_two_char f 'n' '\n' X (by simp [simpleEscape]), h6]
            · rw [if_neg h6]
              by_cases h7 : c = '\r'
              · rw [if_pos h7, List.cons_append, List.cons_append,
                  List.nil_append,
                  psb_two_char f 'r' '\r' X (by simp [simpleEscape]), h7]
              · rw [if_neg h7]
                by_cases h8 : c = '\t'
                · rw [if_pos h8, List.cons_append, List.cons_append,
                    List.nil_append,
                    psb_two_char f 't' '\t' X (by simp [simpleEscape]), h8]
                · rw [if_neg h8]
                  by_cases h9 : c.toNat < 65536
                  · rw [if_pos h9]
                    have hns := char_not_surrogate c
                    simp only [List.cons_append, List.append_assoc]
                    rw [psb_unicode f c.toNat X h9 (by omega) (by omega),
                      Char.ofNat_toNat]
                  · rw [if_neg h9]
                    have hmax := char_lt_max c
                    have hdiv : (c.toNat - 65536) / 1024 < 1024 := by omega
                    have hmod : (c.toNat - 65536) % 1024 < 1024 :=
                      Nat.mod_lt _ (by omega)
                    have harith : 65536 +
                        (55296 + (c.toNat - 65536) / 1024 - 55296) * 1024 +
                        (56320 + (c.toNat - 65536) % 1024 - 56320) =
                        c.toNat := by omega
                    simp only [List.cons_append, List.append_assoc]
                    rw [psb_surrogate_pair f _ _ X (by omega) (by omega),
                      harith, Char.ofNat_toNat]

theorem parseStringBody_escape (s : List Char) :
    ∀ (f : Nat) (rest : List Char), s.length + 1 <= f →
    parseStringBody f (escapeChars s ++ '"' :: rest) = some (s, rest) := by
  induction s with
  | nil =>
    intro f rest hf
    obtain ⟨f2, rfl⟩ : ∃ f2, f = f2 + 1 := ⟨f - 1, by omega⟩
    simp [escapeChars, parseStringBody]
  | cons c s ih =>
    intro f rest hf
    obtain ⟨f2, rfl⟩ : ∃ f2, f = f2 + 1 := ⟨f - 1, by omega⟩
    simp only [List.length_cons] at hf
    rw [escapeChars, List.append_assoc, psb_escapeChar c f2 _,
      ih f2 rest (by omega)]
    rfl

/-! ## Round-trip: structure -/

theorem one_le_sizeJ (v : Json) : 1 ≤ sizeJ v := by
  cases v <;> simp [sizeJ]

theorem isDigit_not_ws (c : Char) (h : c.isDigit = true) : isWs c = false := by
  by_cases e1 : c = ' '
  · subst e1; simp at h
  · by_cases e2 : c = '\t'
    · subst e2; simp at h
    · by_cases e3 : c = '\n'
      · subst e3; simp at h
      · by_cases e4 : c = '\r'
        · subst e4; simp at h
        · simp [isWs, e1, e2, e3, e4]

theorem digit_char_facts (c : Char) (h : c.isDigit = true) :
    isWs c = false ∧ ¬c = '\x7b' ∧ ¬c = '[' ∧ ¬c = '"' ∧ ¬c = 't' ∧
      ¬c = 'f' ∧ ¬c = 'n' := by
  refine ⟨isDigit_not_ws c h, ?_, ?_, ?_, ?_, ?_, ?_⟩ <;>
    (intro he; subst he; exact absurd h (by decide))

theorem natToChars_head_digit (n : Nat) :
    ∃ d t, natToChars n = d :: t ∧ d.isDigit = true := by
  cases hh : natToChars n with
  | nil => exact absurd hh (natToChars_ne_nil n)
  | cons d t =>
    refine ⟨d, t, rfl, ?_⟩
    have := natToChars_all_digits n
    rw [hh] at this
    simp only [List.all_cons, Bool.and_eq_true] at this
    exact this.1

theorem intToChars_head (i : Int) :
    ∃ c t, intToChars i = c :: t ∧ (c = '-' ∨ c.isDigit = true) := by
  unfold intToChars
  by_cases h : i < 0
  · rw [if_pos h]
    exact ⟨'-', _, rfl, Or.inl rfl⟩
  · rw [if_neg h]
    obtain ⟨d, t, hd, hdig⟩ := natToChars_head_digit i.toNat
    exact ⟨d, t, hd, Or.inr hdig⟩

theorem headNot_digit_of_skipWs (tail rest : List Char) (c : Char)
    (h : skipWs tail = c :: rest) (hc : c.isDigit = false) :
    headNot Char.isDigit tail = true := by
  cases tail with
  | nil => simp [skipWs] at h
  | cons a t =>
    by_cases hws : isWs a = true
    · have : a.isDigit = false := by
        by_cases hd : a.isDigit = true
        · rw [isDigit_not_ws a hd] at hws
          simp at hws
        · simpa using hd
      simp [headNot, this]
    · rw [skipWs_cons_not_ws _ _ (by simpa using hws)] at h
      injection h with h1 h2
      subst h1
      simp [headNot, hc]

theorem dictGet_append_none (a : List (String × Json)) (k x : String)
    (v : Json) (h : dictGet a x = none) (hk : ¬x = k) :
    dictGet (a ++ [(k, v)]) x = none := by
  induction a with
  | nil => simp [dictGet, Ne.symm hk]
  | cons p r ih =>
    obtain ⟨k2, v2⟩ := p
    by_cases h2 : k2 = x
    · simp [dictGet, h2] at h
    · simp only [dictGet, if_neg h2] at h
      simp only [List.cons_append, dictGet, if_neg h2]
      exact ih h

theorem foldl_dictSet_append (ms : List (String × Json)) :
    ∀ acc, (∀ p ∈ ms, dictGet acc p.1 = none) → nodupKeys ms = true →
    ms.foldl (fun d p => dictSet d p.1 p.2) acc = acc ++ ms := by
  induction ms with
  | nil => intro acc _ _; simp
  | cons p r ih =>
    intro acc hdisj hn
    obtain ⟨k, v⟩ := p
    simp only [nodupKeys, Bool.and_eq_true, Bool.not_eq_true'] at hn
    have hanyr : ∀ q ∈ r, ¬(q.1 = k) := by
      intro q hq
      have := hn.1
      rw [List.any_eq_false] at this
      simpa using this q hq
    simp only [List.foldl_cons]
    rw [dictSet_of_not_mem acc k v (hdisj (k, v) (by simp))]
    rw [ih (acc ++ [(k, v)]) ?_ hn.2]
    · simp
    · intro q hq
      exact dictGet_append_none acc k q.1 v
        (hdisj q (by simp [hq])) (hanyr q hq)

theorem buildDict_self (ms : List (String × Json))
    (h : nodupKeys ms = true) : buildDict ms = ms := by
  unfold buildDict
  rw [foldl_dictSet_append ms [] (fun p _ => rfl) h]
  simp

theorem wfMembers_forall (ms : List (String × Json)) :
    wfMembers ms = true ↔ ∀ p ∈ ms, wfJson p.2 = true := by
  induction ms with
  | nil => simp [wfMembers]
  | cons p r ih =>
    obtain ⟨k, v⟩ := p
    simp only [wfMembers, Bool.and_eq_true, ih]
    constructor
    · rintro ⟨h1, h2⟩ q hq
      rcases List.mem_cons.mp hq with rfl | hq2
      · exact h1
      · exact h2 q hq2
    · intro hh
      exact ⟨hh (k, v) (by simp), fun q hq => hh q (by simp [hq])⟩

theorem nodupKeys_buildDict (pairs : List (String × Json)) :
    nodupKeys (buildDict pairs) = true := by
  unfold buildDict
  suffices h : ∀ acc, nodupKeys acc = true →
      nodupKeys (pairs.foldl (fun d p => dictSet d p.1 p.2) acc) = true from
    h [] rfl
  induction pairs with
  | nil => intro acc h; simpa using h
  | cons p r ih =>
    intro acc h
    simp only [List.foldl_cons]
    exact ih _ (nodupKeys_dictSet acc p.1 p.2 h)

theorem wfMembers_buildDict (pairs : List (String × Json))
    (h : ∀ p ∈ pairs, wfJson p.2 = true) :
    wfMembers (buildDict pairs) = true := by
  unfold buildDict
  suffices hh : ∀ acc, wfMembers acc = true →
      wfMembers (pairs.foldl (fun d p => dictSet d p.1 p.2) acc) = true from
    hh [] rfl
  induction pairs with
  | nil => intro acc ha; simpa using ha
  | cons p r ih =>
    intro acc ha
    simp only [List.foldl_cons]
    refine ih (fun q hq => h q (by simp [hq])) _
      (wfMembers_dictSet acc p.1 p.2 ha (h p (by simp)))

theorem one_le_length_intToChars (i : Int) : 1 ≤ (intToChars i).length := by
  obtain ⟨c, t, hc, -⟩ := intToChars_head i
  rw [hc]
  simp

theorem dump_size (k : Nat) :
    (∀ v lvl, sizeJ v ≤ k → sizeJ v ≤ (dumpVal lvl v).length) ∧
    (∀ l lvl, sizeA l ≤ k → l ≠ [] → sizeA l ≤ (dumpItems lvl l).length + 1) ∧
    (∀ ms lvl, sizeM ms ≤ k → ms ≠ [] →
      sizeM ms ≤ (dumpMembers lvl ms).length + 1) := by
  induction k using Nat.strong_induction_on with
  | _ k ih =>
    refine ⟨?_, ?_, ?_⟩
    · intro v lvl hs
      cases v with
      | null => simp [sizeJ, dumpVal]
      | bool b => cases b <;> simp [sizeJ, dumpVal]
      | num i =>
        have := one_le_length_intToChars i
        simp only [sizeJ, dumpVal]
        omega
      | str s =>
        simp [sizeJ, dumpVal, dumpStr]
      | arr l =>
        cases l with
        | nil => simp [sizeJ, sizeA, dumpVal]
        | cons v r =>
          have h1 : 1 ≤ sizeJ (Json.arr (v :: r)) := one_le_sizeJ _
          have hk1 : k - 1 < k := by
            simp only [sizeJ] at hs ⊢
            omega
          have hitems := (ih (k - 1) hk1).2.1 (v :: r) (lvl + 1)
            (by simp only [sizeJ] at hs; omega) (by simp)
          simp only [sizeJ, dumpVal, List.length_cons, List.length_append,
            nlIndent, List.length_replicate] at hs hitems ⊢
          omega
      | obj m =>
        cases m with
        | nil => simp [sizeJ, sizeM, dumpVal]
        | cons p r =>
          obtain ⟨key, v⟩ := p
          have hk1 : k - 1 < k := by
            simp only [sizeJ] at hs
            omega
          have hmem := (ih (k - 1) hk1).2.2 ((key, v) :: r) (lvl + 1)
            (by simp only [sizeJ] at hs; omega) (by simp)
          simp only [sizeJ, dumpVal, List.length_cons, List.length_append,
            nlIndent, List.length_replicate] at hs hmem ⊢
          omega
    · intro l lvl hs hne
      cases l with
      | nil => exact absurd rfl hne
      | cons v r =>
        have hk1 : k - 1 < k ∨ k = 0 := by omega
        have h1 : 1 ≤ sizeJ v := one_le_sizeJ v
        have hszk : sizeA (v :: r) = 1 + sizeJ v + sizeA r := rfl
        have hknz : 0 < k := by
          simp only [sizeA] at hs
          omega
        have hv := (ih (k - 1) (by omega)).1 v lvl
          (by simp only [sizeA] at hs; omega)
        cases r with
        | nil =>
          simp only [sizeA, dumpItems] at hs ⊢
          omega
        | cons w t =>
          have hr := (ih (k - 1) (by omega)).2.1 (w :: t) lvl
            (by simp only [sizeA] at hs ⊢; omega) (by simp)
          simp only [sizeA, dumpItems, List.length_append, List.length_cons,
            nlIndent, List.length_replicate] at hs hr ⊢
          omega
    · intro ms lvl hs hne
      cases ms with
      | nil => exact absurd rfl hne
      | cons p r =>
        obtain ⟨key, v⟩ := p
        have h1 : 1 ≤ sizeJ v := one_le_sizeJ v
        have hknz : 0 < k := by
          simp only [sizeM] at hs
          omega
        have hv := (ih (k - 1) (by omega)).1 v lvl
          (by simp only [sizeM] at hs; omega)
        cases r with
        | nil =>
          simp only [sizeM, dumpMembers, List.length_append,
            List.length_cons] at hs ⊢
          omega
        | cons q t =>
          obtain ⟨key2, v2⟩ := q
          have hr := (ih (k - 1) (by omega)).2.2 ((key2, v2) :: t) lvl
            (by simp only [sizeM] at hs ⊢; omega) (by simp)
          simp only [sizeM, dumpMembers, List.length_append,
            List.length_cons, nlIndent, List.length_replicate] at hs hr ⊢
          omega

theorem parseValue_ws (f : Nat) (pre s : List Char) (h : pre.all isWs = true) :
    parseValue f (pre ++ s) = parseValue f s := by
  cases f with
  | zero => rfl
  | succ g => simp only [parseValue, skipWs_append_allWs pre s h]

theorem parseMembers_ws (f : Nat) (pre s : List Char)
    (h : pre.all isWs = true) :
    parseMembers f (pre ++ s) = parseMembers f s := by
  cases f with
  | zero => rfl
  | succ g => simp only [parseMembers, skipWs_append_allWs pre s h]

theorem parseItems_ws (f : Nat) (pre s : List Char) (h : pre.all isWs = true) :
    parseItems f (pre ++ s) = parseItems f s := by
  cases f with
  | zero => rfl
  | succ g => simp only [parseItems, parseValue_ws g pre s h]

theorem digit_not_bracket (c : Char) (h : c.isDigit = true) :
    ¬c = ']' ∧ ¬c = '\x7d' := by
  refine ⟨?_, ?_⟩ <;> (intro he; subst he; exact absurd h (by decide))

theorem dumpVal_head_cons (lvl : Nat) (v : Json) :
    ∃ c t, dumpVal lvl v = c :: t ∧ isWs c = false ∧ ¬c = ']' ∧
      ¬c = '\x7d' := by
  cases v with
  | null => exact ⟨'n', _, rfl, by decide, by decide, by decide⟩
  | bool b =>
    cases b with
    | false => exact ⟨'f', _, rfl, by decide, by decide, by decide⟩
    | true => exact ⟨'t', _, rfl, by decide, by decide, by decide⟩
  | num i =>
    obtain ⟨c, t, hc, hd⟩ := intToChars_head i
    refine ⟨c, t, hc, ?_, ?_, ?_⟩
    · rcases hd with rfl | hd
      · decide
      · exact isDigit_not_ws c hd
    · rcases hd with rfl | hd
      · decide
      · exact (digit_not_bracket c hd).1
    · rcases hd with rfl | hd
      · decide
      · exact (digit_not_bracket c hd).2
  | str s => exact ⟨'"', _, rfl, by decide, by decide, by decide⟩
  | arr l =>
    cases l with
    | nil => exact ⟨'[', _, rfl, by decide, by decide, by decide⟩
    | cons v r => exact ⟨'[', _, rfl, by decide, by decide, by decide⟩
  | obj m =>
    cases m with
    | nil => exact ⟨'\x7b', _, rfl, by decide, by decide, by decide⟩
    | cons p r =>
      obtain ⟨k, v⟩ := p
      exact ⟨'\x7b', _, rfl, by decide, by decide, by decide⟩

theorem dumpItems_cons_eq (lvl : Nat) (v : Json) (r : List Json) :
    ∃ T, dumpItems lvl (v :: r) = dumpVal lvl v ++ T := by
  cases r with
  | nil => exact ⟨[], by simp [dumpItems]⟩
  | cons w t =>
    exact ⟨',' :: (nlIndent lvl ++ dumpItems lvl (w :: t)),
      by simp [dumpItems]⟩

theorem dumpMembers_cons_eq (lvl : Nat) (k : String) (v : Json)
    (r : List (String × Json)) :
    ∃ T, dumpMembers lvl ((k, v) :: r) =
      '"' :: (escapeChars k.data ++ ('"' :: (':' :: ' ' ::
        (dumpVal lvl v ++ T)))) := by
  cases r with
  | nil =>
    refine ⟨[], ?_⟩
    simp [dumpMembers, dumpStr]
  | cons q t =>
    obtain ⟨k2, v2⟩ := q
    refine ⟨',' :: nlIndent lvl ++ dumpMembers lvl ((k2, v2) :: t), ?_⟩
    simp [dumpMembers, dumpStr]

theorem pd_step_null (f lvl : Nat) (rest : List Char) :
    parseValue (f + 1) (dumpVal lvl Json.null ++ rest) =
      some (.null, rest) := rfl

theorem pd_step_true (f lvl : Nat) (rest : List Char) :
    parseValue (f + 1) (dumpVal lvl (Json.bool true) ++ rest) =
      some (.bool true, rest) := rfl

theorem pd_step_false (f lvl : Nat) (rest : List Char) :
    parseValue (f + 1) (dumpVal lvl (Json.bool false) ++ rest) =
      some (.bool false, rest) := rfl

theorem pd_step_obj_empty (f lvl : Nat) (rest : List Char) :
    parseValue (f + 1) (dumpVal lvl (Json.obj []) ++ rest) =
      some (.obj [], rest) := rfl

theorem pd_step_arr_empty (f lvl : Nat) (rest : List Char) :
    parseValue (f + 1) (dumpVal lvl (Json.arr []) ++ rest) =
      some (.arr [], rest) := rfl

theorem pd_step_num (f lvl : Nat) (i : Int) (rest : List Char)
    (hr : headNot Char.isDigit rest = true) :
    parseValue (f + 1) (dumpVal lvl (Json.num i) ++ rest) =
      some (.num i, rest) := by
  obtain ⟨c, t, hc, hd⟩ := intToChars_head i
  have hws : isWs c = false := by
    rcases hd with rfl | hd
    · decide
    · exact isDigit_not_ws c hd
  have hfacts : ¬c = '\x7b' ∧ ¬c = '[' ∧ ¬c = '"' ∧ ¬c = 't' ∧ ¬c = 'f' ∧
      ¬c = 'n' := by
    rcases hd with rfl | hd
    · exact ⟨by decide, by decide, by decide, by decide, by decide, by decide⟩
    · have h2 := digit_char_facts c hd
      exact ⟨h2.2.1, h2.2.2.1, h2.2.2.2.1, h2.2.2.2.2.1, h2.2.2.2.2.2.1,
        h2.2.2.2.2.2.2⟩
  show parseValue (f + 1) (intToChars i ++ rest) = _
  rw [hc, List.cons_append]
  simp only [parseValue, skipWs_cons_not_ws _ _ hws]
  rw [if_neg hfacts.1, if_neg hfacts.2.1, if_neg hfacts.2.2.1,
    if_neg hfacts.2.2.2.1, if_neg hfacts.2.2.2.2.1, if_neg hfacts.2.2.2.2.2]
  rw [← List.cons_append, ← hc]
  exact parseNumber_intToChars i rest hr

theorem pd_step_str (f lvl : Nat) (s : String) (rest : List Char) :
    parseValue (f + 1) (dumpVal lvl (Json.str s) ++ rest) =
      some (.str s, rest) := by
  show parseValue (f + 1) (dumpStr s ++ rest) = _
  simp only [dumpStr, List.cons_append, List.append_assoc, List.nil_append,
    List.singleton_append]
  simp only [parseValue,
    skipWs_cons_not_ws _ _ (by decide : isWs '"' = false), if_true]
  rw [parseStringBody_escape s.data _ rest
    (by have := length_le_escapeChars s.data
        simp only [List.length_append, List.length_cons]
        omega)]
  rfl

theorem pd_step_arr_cons (f lvl : Nat) (v : Json) (r : List Json)
    (rest : List Char)
    (hI : parseItems f (dumpItems (lvl + 1) (v :: r) ++
        (nlIndent lvl ++ (']' :: rest))) = some (v :: r, rest)) :
    parseValue (f + 1) (dumpVal lvl (Json.arr (v :: r)) ++ rest) =
      some (.arr (v :: r), rest) := by
  obtain ⟨T, hT⟩ := dumpItems_cons_eq (lvl + 1) v r
  obtain ⟨c, t, hc, hws, hbr, hobr⟩ := dumpVal_head_cons (lvl + 1) v
  simp only [dumpVal, List.cons_append, List.append_assoc, List.nil_append]
  simp only [parseValue,
    skipWs_cons_not_ws _ _ (by decide : isWs '[' = false), if_true]
  rw [if_neg (by decide : ¬('[' : Char) = '\x7b')]
  rw [skipWs_nlIndent, hT, hc, List.append_assoc, List.cons_append,
    skipWs_cons_not_ws _ _ hws]
  dsimp only
  rw [if_neg hbr]
  rw [← List.cons_append, ← List.append_assoc, ← hc, ← hT, hI]
  rfl

theorem pd_step_obj_cons (f lvl : Nat) (k : String) (v : Json)
    (ms : List (String × Json)) (rest : List Char)
    (hM : parseMembers f (dumpMembers (lvl + 1) ((k, v) :: ms) ++
        (nlIndent lvl ++ ('\x7d' :: rest))) = some ((k, v) :: ms, rest))
    (hnd : nodupKeys ((k, v) :: ms) = true) :
    parseValue (f + 1) (dumpVal lvl (Json.obj ((k, v) :: ms)) ++ rest) =
      some (.obj ((k, v) :: ms), rest) := by
  obtain ⟨T, hT⟩ := dumpMembers_cons_eq (lvl + 1) k v ms
  simp only [dumpVal, List.cons_append, List.append_assoc, List.nil_append]
  simp only [parseValue,
    skipWs_cons_not_ws _ _ (by decide : isWs '\x7b' = false), if_true]
  rw [skipWs_nlIndent, hT, List.cons_append,
    skipWs_cons_not_ws _ _ (by decide : isWs '"' = false)]
  dsimp only
  rw [if_neg (by decide : ¬('"' : Char) = '\x7d')]
  rw [← List.cons_append, ← hT, hM]
  show some (Json.obj (buildDict ((k, v) :: ms)), rest) = _
  rw [buildDict_self _ hnd]

theorem pm_step_last (f lvl : Nat) (k : String) (v : Json)
    (tail rest : List Char)
    (hV : parseValue f (' ' :: (dumpVal lvl v ++ tail)) = some (v, tail))
    (htail : skipWs tail = '\x7d' :: rest) :
    parseMembers (f + 1) (dumpMembers lvl [(k, v)] ++ tail) =
      some ([(k, v)], rest) := by
  show parseMembers (f + 1)
    ((dumpStr k ++ ':' :: ' ' :: dumpVal lvl v) ++ tail) = _
  simp only [dumpStr, List.cons_append, List.append_assoc, List.nil_append,
    List.singleton_append]
  simp only [parseMembers,
    skipWs_cons_not_ws _ _ (by decide : isWs '"' = false), if_true]
  rw [parseStringBody_escape k.data _ _
    (by have := length_le_escapeChars k.data
        simp only [List.length_append, List.length_cons]
        omega)]
  dsimp only
  rw [skipWs_cons_not_ws _ _ (by decide : isWs ':' = false)]
  dsimp only
  rw [if_pos rfl, hV]
  dsimp only
  rw [htail]
  dsimp only
  rw [if_neg (by decide : ¬('\x7d' : Char) = ','), if_pos rfl]

theorem pm_step_more (f lvl : Nat) (k : String) (v : Json)
    (m0 : String × Json) (ms : List (String × Json)) (tail rest : List Char)
    (hV : parseValue f (' ' :: (dumpVal lvl v ++ (',' :: (nlIndent lvl ++
        (dumpMembers lvl (m0 :: ms) ++ tail))))) =
      some (v, ',' :: (nlIndent lvl ++ (dumpMembers lvl (m0 :: ms) ++ tail))))
    (hRec : parseMembers f (dumpMembers lvl (m0 :: ms) ++ tail) =
      some (m0 :: ms, rest)) :
    parseMembers (f + 1) (dumpMembers lvl ((k, v) :: m0 :: ms) ++ tail) =
      some ((k, v) :: m0 :: ms, rest) := by
  obtain ⟨k0, v0⟩ := m0
  show parseMembers (f + 1)
    ((dumpStr k ++ ':' :: ' ' :: dumpVal lvl v ++ ',' :: nlIndent lvl ++
      dumpMembers lvl ((k0, v0) :: ms)) ++ tail) = _
  simp only [dumpStr, List.cons_append, List.append_assoc, List.nil_append,
    List.singleton_append]
  simp only [parseMembers,
    skipWs_cons_not_ws _ _ (by decide : isWs '"' = false), if_true]
  rw [parseStringBody_escape k.data _ _
    (by have := length_le_escapeChars k.data
        simp only [List.length_append, List.length_cons]
        omega)]
  dsimp only
  rw [skipWs_cons_not_ws _ _ (by decide : isWs ':' = false)]
  dsimp only
  rw [if_pos rfl, hV]
  dsimp only
  rw [skipWs_cons_not_ws _ _ (by decide : isWs ',' = false)]
  dsimp only
  rw [if_pos rfl]
  rw [parseMembers_ws f (nlIndent lvl) _ (allWs_nlIndent lvl), hRec]
  rfl

theorem pi_step_last (f lvl : Nat) (v : Json) (tail rest : List Char)
    (hV : parseValue f (dumpVal lvl v ++ tail) = some (v, tail))
    (htail : skipWs tail = ']' :: rest) :
    parseItems (f + 1) (dumpItems lvl [v] ++ tail) = some ([v], rest) := by
  show parseItems (f + 1) (dumpVal lvl v ++ tail) = _
  simp only [parseItems, hV]
  try dsimp only
  rw [htail]
  dsimp only
  rw [if_neg (by decide : ¬(']' : Char) = ','), if_pos rfl]

theorem pi_step_more (f lvl : Nat) (v w : Json) (ms : List Json)
    (tail rest : List Char)
    (hV : parseValue f (dumpVal lvl v ++ (',' :: (nlIndent lvl ++
        (dumpItems lvl (w :: ms) ++ tail)))) =
      some (v, ',' :: (nlIndent lvl ++ (dumpItems lvl (w :: ms) ++ tail))))
    (hRec : parseItems f (dumpItems lvl (w :: ms) ++ tail) =
      some (w :: ms, rest)) :
    parseItems (f + 1) (dumpItems lvl (v :: w :: ms) ++ tail) =
      some (v :: w :: ms, rest) := by
  show parseItems (f + 1)
    ((dumpVal lvl v ++ ',' :: nlIndent lvl ++ dumpItems lvl (w :: ms)) ++
      tail) = _
  simp only [List.cons_append, List.append_assoc]
  simp only [parseItems, hV]
  try dsimp only
  rw [skipWs_cons_not_ws _ _ (by decide : isWs ',' = false)]
  dsimp only
  rw [if_pos rfl]
  rw [parseItems_ws f (nlIndent lvl) _ (allWs_nlIndent lvl), hRec]
  rfl

/-- The serializer/parser round trip, by strong induction on fuel: with
enough fuel, parsing a serialized well-formed value (object member list,
array item list) consumes exactly the serialized text. -/
theorem parse_dump (f : Nat) :
    (∀ v lvl rest, wfJson v = true → sizeJ v ≤ f →
      headNot Char.isDigit rest = true →
      parseValue f (dumpVal lvl v ++ rest) = some (v, rest)) ∧
    (∀ ms lvl tail rest, ms ≠ [] → wfMembers ms = true → sizeM ms ≤ f →
      skipWs tail = '\x7d' :: rest →
      parseMembers f (dumpMembers lvl ms ++ tail) = some (ms, rest)) ∧
    (∀ l lvl tail rest, l ≠ [] → wfList l = true → sizeA l ≤ f →
      skipWs tail = ']' :: rest →
      parseItems f (dumpItems lvl l ++ tail) = some (l, rest)) := by
  induction f using Nat.strong_induction_on with
  | _ f ih =>
    refine ⟨?_, ?_, ?_⟩
    · intro v lvl rest hwf hsz hrest
      obtain ⟨f2, rfl⟩ : ∃ f2, f = f2 + 1 :=
        ⟨f - 1, by have := one_le_sizeJ v; omega⟩
      cases v with
      | null => exact pd_step_null f2 lvl rest
      | bool b =>
        cases b with
        | false => exact pd_step_false f2 lvl rest
        | true => exact pd_step_true f2 lvl rest
      | num i => exact pd_step_num f2 lvl i rest hrest
      | str s => exact pd_step_str f2 lvl s rest
      | arr l =>
        cases l with
        | nil => exact pd_step_arr_empty f2 lvl rest
        | cons v r =>
          simp only [wfJson] at hwf
          simp only [sizeJ] at hsz
          refine pd_step_arr_cons f2 lvl v r rest ?_
          have htail : skipWs (nlIndent lvl ++ (']' :: rest)) =
              ']' :: rest := by
            rw [skipWs_nlIndent, skipWs_cons_not_ws _ _ (by decide)]
          exact (ih f2 (by omega)).2.2 (v :: r) (lvl + 1) _ rest (by simp)
            hwf (by omega) htail
      | obj m =>
        cases m with
        | nil => exact pd_step_obj_empty f2 lvl rest
        | cons p ms0 =>
          obtain ⟨k, v0⟩ := p
          simp only [wfJson, Bool.and_eq_true] at hwf
          simp only [sizeJ] at hsz
          refine pd_step_obj_cons f2 lvl k v0 ms0 rest ?_ hwf.1
          have htail : skipWs (nlIndent lvl ++ ('\x7d' :: rest)) =
              '\x7d' :: rest := by
            rw [skipWs_nlIndent, skipWs_cons_not_ws _ _ (by decide)]
          exact (ih f2 (by omega)).2.1 ((k, v0) :: ms0) (lvl + 1) _ rest
            (by simp) hwf.2 (by omega) htail
    · intro ms lvl tail rest hne hwf hsz htail
      cases ms with
      | nil => exact absurd rfl hne
      | cons p ms' =>
        obtain ⟨k, v⟩ := p
        simp only [wfMembers, Bool.and_eq_true] at hwf
        simp only [sizeM] at hsz
        obtain ⟨f2, rfl⟩ : ∃ f2, f = f2 + 1 :=
          ⟨f - 1, by have := one_le_sizeJ v; omega⟩
        cases ms' with
        | nil =>
          refine pm_step_last f2 lvl k v tail rest ?_ htail
          rw [show (' ' :: (dumpVal lvl v ++ tail)) =
            [' '] ++ (dumpVal lvl v ++ tail) from rfl]
          rw [parseValue_ws f2 [' '] _ (by decide)]
          exact (ih f2 (by omega)).1 v lvl tail hwf.1 (by omega)
            (headNot_digit_of_skipWs tail rest _ htail (by decide))
        | cons m0 ms'' =>
          obtain ⟨k0, v0⟩ := m0
          simp only [sizeM] at hsz
          refine pm_step_more f2 lvl k v (k0, v0) ms'' tail rest ?_ ?_
          · rw [show (' ' :: (dumpVal lvl v ++ (',' :: (nlIndent lvl ++
              (dumpMembers lvl ((k0, v0) :: ms'') ++ tail))))) =
              [' '] ++ (dumpVal lvl v ++ (',' :: (nlIndent lvl ++
              (dumpMembers lvl ((k0, v0) :: ms'') ++ tail)))) from rfl]
            rw [parseValue_ws f2 [' '] _ (by decide)]
            exact (ih f2 (by omega)).1 v lvl _ hwf.1 (by omega) rfl
          · exact (ih f2 (by omega)).2.1 ((k0, v0) :: ms'') lvl tail rest
              (by simp) hwf.2 (by simp only [sizeM]; omega) htail
    · intro l lvl tail rest hne hwf hsz htail
      cases l with
      | nil => exact absurd rfl hne
      | cons v r =>
        simp only [wfList, Bool.and_eq_true] at hwf
        simp only [sizeA] at hsz
        obtain ⟨f2, rfl⟩ : ∃ f2, f = f2 + 1 :=
          ⟨f - 1, by have := one_le_sizeJ v; omega⟩
        cases r with
        | nil =>
          refine pi_step_last f2 lvl v tail rest ?_ htail
          exact (ih f2 (by omega)).1 v lvl tail hwf.1 (by omega)
            (headNot_digit_of_skipWs tail rest _ htail (by decide))
        | cons w t =>
          simp only [sizeA] at hsz
          refine pi_step_more f2 lvl v w t tail rest ?_ ?_
          · exact (ih f2 (by omega)).1 v lvl _ hwf.1 (by omega) rfl
          · exact (ih f2 (by omega)).2.2 (w :: t) lvl tail rest (by simp)
              hwf.2 (by simp only [sizeA]; omega) htail

/-- Round trip at the file level: re-parsing the serialized form of a
well-formed document (with the script's trailing newline) restores it. -/
theorem loads_dumps (v : Json) (hv : wfJson v = true) :
    loads (dumps v ++ "\n") = some v := by
  have hdata : (dumps v ++ "\n").data = dumpVal 0 v ++ ['\n'] := by
    simp [dumps, String.data_append]
  show loadsChars (dumps v ++ "\n").data = some v
  rw [hdata]
  unfold loadsChars
  have hsz : sizeJ v ≤ (dumpVal 0 v ++ ['\n']).length + 1 := by
    have := (dump_size (sizeJ v)).1 v 0 le_rfl
    simp only [List.length_append, List.length_cons, List.length_nil]
    omega
  rw [(parse_dump _).1 v 0 ['\n'] hv hsz (by decide)]
  rfl

theorem parseNumber_shape (s : List Char) (v : Json) (r : List Char)
    (h : parseNumber s = some (v, r)) : ∃ i, v = .num i := by
  cases s with
  | nil => simp [parseNumber] at h
  | cons c cr =>
    unfold parseNumber at h
    dsimp only at h
    by_cases h1 : c = '-'
    · rw [if_pos h1] at h
      cases hp : parseNatChars cr with
      | none => rw [hp] at h; simp at h
      | some p =>
        rw [hp] at h
        injection h with h2
        exact ⟨-(p.1 : Int), (congrArg Prod.fst h2).symm⟩
    · rw [if_neg h1] at h
      cases hp : parseNatChars (c :: cr) with
      | none => rw [hp] at h; simp at h
      | some p =>
        rw [hp] at h
        injection h with h2
        exact ⟨(p.1 : Int), (congrArg Prod.fst h2).symm⟩

/-- Every value the parser produces is well-formed: objects are built by
Python dict insertion, so keys are pairwise distinct. -/
theorem parse_wf (f : Nat) :
    (∀ s v r, parseValue f s = some (v, r) → wfJson v = true) ∧
    (∀ s ms r, parseMembers f s = some (ms, r) →
      wfMembers ms = true) ∧
    (∀ s l r, parseItems f s = some (l, r) → wfList l = true) := by
  induction f using Nat.strong_induction_on with
  | _ f ih =>
    refine ⟨?_, ?_, ?_⟩
    · intro s v r h
      cases f with
      | zero => simp [parseValue] at h
      | succ f2 =>
        unfold parseValue at h
        rcases hss : skipWs s with _ | ⟨c, cr⟩ <;> rw [hss] at h
        · simp at h
        · dsimp only at h
          by_cases h1 : c = '\x7b'
          · rw [if_pos h1] at h
            rcases h2 : skipWs cr with _ | ⟨c2, r2⟩ <;> rw [h2] at h
            · simp at h
            · dsimp only at h
              by_cases h3 : c2 = '\x7d'
              · rw [if_pos h3] at h
                injection h with h4
                have hv : v = .obj [] := (congrArg Prod.fst h4).symm
                subst hv
                rfl
              · rw [if_neg h3] at h
                cases hpm : parseMembers f2 (c2 :: r2) with
                | none => rw [hpm] at h; simp at h
                | some p =>
                  rw [hpm] at h
                  injection h with h4
                  have hv : v = .obj (buildDict p.1) :=
                    (congrArg Prod.fst h4).symm
                  subst hv
                  have hms := (ih f2 (by omega)).2.1 _ _ _ hpm
                  simp only [wfJson, Bool.and_eq_true]
                  refine ⟨nodupKeys_buildDict p.1, ?_⟩
                  refine wfMembers_buildDict p.1 ?_
                  exact (wfMembers_forall p.1).mp hms
          · rw [if_neg h1] at h
            by_cases h5 : c = '['
            · rw [if_pos h5] at h
              rcases h2 : skipWs cr with _ | ⟨c2, r2⟩ <;> rw [h2] at h
              · simp at h
              · dsimp only at h
                by_cases h3 : c2 = ']'
                · rw [if_pos h3] at h
                  injection h with h4
                  have hv : v = .arr [] := (congrArg Prod.fst h4).symm
                  subst hv
                  rfl
                · rw [if_neg h3] at h
                  cases hpi : parseItems f2 (c2 :: r2) with
                  | none => rw [hpi] at h; simp at h
                  | some p =>
                    rw [hpi] at h
                    injection h with h4
                    have hv : v = .arr p.1 := (congrArg Prod.fst h4).symm
                    subst hv
                    exact (ih f2 (by omega)).2.2 _ _ _ hpi
            · rw [if_neg h5] at h
              by_cases h6 : c = '"'
              · rw [if_pos h6] at h
                cases hps : parseStringBody (cr.length + 1) cr with
                | none => rw [hps] at h; simp at h
                | some p =>
                  rw [hps] at h
                  injection h with h4
                  have hv : v = .str (String.mk p.1) :=
                    (congrArg Prod.fst h4).symm
                  subst hv
                  rfl
              · rw [if_neg h6] at h
                by_cases h7 : c = 't'
                · rw [if_pos h7] at h
                  split at h
                  · injection h with h4
                    have hv : v = .bool true := (congrArg Prod.fst h4).symm
                    subst hv
                    rfl
                  · simp at h
                · rw [if_neg h7] at h
                  by_cases h8 : c = 'f'
                  · rw [if_pos h8] at h
                    split at h
                    · injection h with h4
                      have hv : v = .bool false :=
                        (congrArg Prod.fst h4).symm
                      subst hv
                      rfl
                    · simp at h
                  · rw [if_neg h8] at h
                    by_cases h9 : c = 'n'
                    · rw [if_pos h9] at h
                      split at h
                      · injection h with h4
                        have hv : v = .null := (congrArg Prod.fst h4).symm
                        subst hv
                        rfl
                      · simp at h
                    · rw [if_neg h9] at h
                      obtain ⟨i, hv⟩ := parseNumber_shape _ _ _ h
                      subst hv
                      rfl
    · intro s ms r h
      cases f with
      | zero => simp [parseMembers] at h
      | succ f2 =>
        unfold parseMembers at h
        rcases hss : skipWs s with _ | ⟨c, cr⟩ <;> rw [hss] at h
        · simp at h
        · dsimp only at h
          by_cases h1 : c = '"'
          · rw [if_pos h1] at h
            cases hps : parseStringBody (cr.length + 1) cr with
            | none => rw [hps] at h; simp at h
            | some p =>
              rw [hps] at h
              dsimp only at h
              rcases h2 : skipWs p.2 with _ | ⟨c2, r3⟩ <;> rw [h2] at h
              · simp at h
              · dsimp only at h
                by_cases h3 : c2 = ':'
                · rw [if_pos h3] at h
                  cases hpv : parseValue f2 r3 with
                  | none => rw [hpv] at h; simp at h
                  | some q =>
                    rw [hpv] at h
                    dsimp only at h
                    have hwv := (ih f2 (by omega)).1 _ _ _ hpv
                    rcases h4 : skipWs q.2 with _ | ⟨c3, r5⟩ <;>
                      rw [h4] at h
                    · simp at h
                    · dsimp only at h
                      by_cases h5 : c3 = ','
                      · rw [if_pos h5] at h
                        cases hpm : parseMembers f2 r5 with
                        | none => rw [hpm] at h; simp at h
                        | some p2 =>
                          rw [hpm] at h
                          injection h with h6
                          have hms : ms = (String.mk p.1, q.1) :: p2.1 :=
                            (congrArg Prod.fst h6).symm
                          subst hms
                          have hmem := (ih f2 (by omega)).2.1 _ _ _ hpm
                          simp only [wfMembers, Bool.and_eq_true]
                          exact ⟨hwv, hmem⟩
                      · rw [if_neg h5] at h
                        by_cases h7 : c3 = '\x7d'
                        · rw [if_pos h7] at h
                          injection h with h6
                          have hms : ms = [(String.mk p.1, q.1)] :=
                            (congrArg Prod.fst h6).symm
                          subst hms
                          simp only [wfMembers, Bool.and_eq_true]
                          exact ⟨hwv, trivial⟩
                        · rw [if_neg h7] at h
                          simp at h
                · rw [if_neg h3] at h
                  simp at h
          · rw [if_neg h1] at h
            simp at h
    · intro s l r h
      cases f with
      | zero => simp [parseItems] at h
      | succ f2 =>
        unfold parseItems at h
        cases hpv : parseValue f2 s with
        | none => rw [hpv] at h; simp at h
        | some q =>
          rw [hpv] at h
          dsimp only at h
          have hwv := (ih f2 (by omega)).1 _ _ _ hpv
          rcases h2 : skipWs q.2 with _ | ⟨c, r2⟩ <;> rw [h2] at h
          · simp at h
          · dsimp only at h
            by_cases h3 : c = ','
            · rw [if_pos h3] at h
              cases hpi : parseItems f2 r2 with
              | none => rw [hpi] at h; simp at h
              | some p2 =>
                rw [hpi] at h
                injection h with h4
                have hl : l = q.1 :: p2.1 := (congrArg Prod.fst h4).symm
                subst hl
                have hit := (ih f2 (by omega)).2.2 _ _ _ hpi
                simp only [wfList, Bool.and_eq_true]
                exact ⟨hwv, hit⟩
            · rw [if_neg h3] at h
              by_cases h5 : c = ']'
              · rw [if_pos h5] at h
                injection h with h4
                have hl : l = [q.1] := (congrArg Prod.fst h4).symm
                subst hl
                simp only [wfList, Bool.and_eq_true]
                exact ⟨hwv, trivial⟩
              · rw [if_neg h5] at h
                simp at h

/-- `json.load` only produces well-formed documents. -/
theorem loads_wf (s : String) (v : Json) (h : loads s = some v) :
    wfJson v = true := by
  unfold loads loadsChars at h
  cases hp : parseValue (s.data.length + 1) s.data with
  | none => rw [hp] at h; simp at h
  | some p =>
    obtain ⟨v1, r1⟩ := p
    rw [hp] at h
    dsimp only at h
    by_cases hsk : skipWs r1 = []
    · rw [if_pos hsk] at h
      injection h with h2
      subst h2
      exact (parse_wf _).1 _ _ _ hp
    · rw [if_neg hsk] at h
      simp at h

/-! ## The claims -/

/-- C1 counterexample: on a missing configuration file the run does fail,
but the hook file `nsis_hooks.nsi` *is* created (it is written before the
configuration is read), so "neither the configuration file nor the hook
file is created or changed" is false. -/
theorem C1_counterexample :
    (runScript { configFile := none, hooksFile := none }).1.hooksFile ≠
      ({ configFile := none, hooksFile := none } : FS).hooksFile := by
  decide

/-- C1 (amended): if the configuration file is missing or not valid JSON,
the run fails with the configuration file unchanged — but the hook file
`nsis_hooks.nsi` has already been created/overwritten with the fixed
content, since the script writes it before reading the configuration. -/
theorem C1_amended_failure (fs : FS)
    (hbad : fs.configFile = none ∨
      ∃ s, fs.configFile = some s ∧ loads s = none) :
    runScript fs =
      ({ configFile := fs.configFile,
         hooksFile := some nsis_hook_content }, false) := by
  rcases hbad with hnone | ⟨s, hs, hl⟩
  · simp [runScript, hnone]
  · simp [runScript, hs, hl]

/-- Witness for C1 (amended), at the missing-file state. -/
theorem C1_amended_failure_witness :
    (({ configFile := none, hooksFile := none } : FS).configFile = none ∨
      ∃ s, ({ configFile := none, hooksFile := none } : FS).configFile =
        some s ∧ loads s = none) ∧
    runScript { configFile := none, hooksFile := none } =
      ({ configFile := none, hooksFile := some nsis_hook_content }, false) :=
  ⟨Or.inl rfl,
    C1_amended_failure { configFile := none, hooksFile := none } (Or.inl rfl)⟩

/-- C2: whenever the patcher completes on a configuration document (which
requires a top-level `"bundle"` mapping), the output document's
`bundle.resources` equals exactly, in order, the fixed three-element list,
whatever it held before. -/
theorem C2_resources_overwritten (config out : Json)
    (h : update_config config = some out) :
    getPath out ["bundle", "resources"] = some (.arr resources_list) ∧
    resources_list =
      [.str "resources/zig-april-captions.exe",
       .str "resources/onnxruntime.dll",
       .str "resources/vc_redist.x64.exe"] :=
  ⟨(update_config_paths config out h).1, rfl⟩

/-- Witness for C2, on the minimal document `cfgMin`. -/
theorem C2_resources_overwritten_witness :
    update_config cfgMin = some cfgMinOut ∧
    (getPath cfgMinOut ["bundle", "resources"] = some (.arr resources_list) ∧
      resources_list =
        [.str "resources/zig-april-captions.exe",
         .str "resources/onnxruntime.dll",
         .str "resources/vc_redist.x64.exe"]) :=
  ⟨by decide, C2_resources_overwritten cfgMin cfgMinOut (by decide)⟩

/-- C3: whenever the patcher completes, the output document's
`bundle.windows.nsis.installerHooks` equals the fixed relative filename
string `"nsis_hooks.nsi"`. -/
theorem C3_installer_hooks (config out : Json)
    (h : update_config config = some out) :
    getPath out ["bundle", "windows", "nsis", "installerHooks"] =
      some (.str "nsis_hooks.nsi") := by
  obtain ⟨-, wOut, nOut, hw, hn, hih⟩ := update_config_paths config out h
  have h1 : getPath out ["bundle", "windows", "nsis", "installerHooks"] =
      getPath (.obj wOut) ["nsis", "installerHooks"] := by
    cases out with
    | obj c =>
      simp only [getPath] at hw ⊢
      cases hbv : dictGet c "bundle" with
      | none => rw [hbv] at hw; simp at hw
      | some bv =>
        rw [hbv] at hw
        cases bv with
        | obj bm =>
          simp only [getPath] at hw ⊢
          cases hwv : dictGet bm "windows" with
          | none => rw [hwv] at hw; simp at hw
          | some wv =>
            rw [hwv] at hw
            cases wv <;> simp_all [getPath]
        | null => simp [getPath] at hw
        | bool b => simp [getPath] at hw
        | num n => simp [getPath] at hw
        | str s => simp [getPath] at hw
        | arr l => simp [getPath] at hw
    | null => simp [getPath] at hw
    | bool b => simp [getPath] at hw
    | num n => simp [getPath] at hw
    | str s => simp [getPath] at hw
    | arr l => simp [getPath] at hw
  rw [h1]
  simp only [getPath, hn, hih]

/-- Witness for C3, on the minimal document `cfgMin`. -/
theorem C3_installer_hooks_witness :
    update_config cfgMin = some cfgMinOut ∧
    getPath cfgMinOut ["bundle", "windows", "nsis", "installerHooks"] =
      some (.str "nsis_hooks.nsi") :=
  ⟨by decide, C3_installer_hooks cfgMin cfgMinOut (by decide)⟩

/-- C4: every run, whatever the input files hold, leaves the hook file
equal to the fixed NSIS macro text verbatim: the `NSIS_HOOK_POSTINSTALL`
macro running `ExecWait` on `$INSTDIR\resources\vc_redist.x64.exe` with
`/install /quiet /norestart`. -/
theorem C4_hook_file_verbatim (fs : FS) :
    (runScript fs).1.hooksFile = some nsis_hook_content ∧
    nsis_hook_content =
      "!macro NSIS_HOOK_POSTINSTALL\n  ; Install VC++ Redistributable silently (required by onnxruntime.dll)\n  ExecWait '\"$INSTDIR\\resources\\vc_redist.x64.exe\" /install /quiet /norestart'\n!macroend\n" :=
  ⟨runScript_hooksFile fs, rfl⟩

/-- The last character of a serialized object is the closing brace (so
the file written by the script ends in exactly one newline). -/
theorem dumps_obj_last (m : List (String × Json)) :
    (dumpVal 0 (.obj m)).getLast? = some '\x7d' := by
  cases m with
  | nil => rfl
  | cons p r =>
    obtain ⟨k, v⟩ := p
    have he : dumpVal 0 (.obj ((k, v) :: r)) =
        ('\x7b' :: (nlIndent 1 ++ (dumpMembers 1 ((k, v) :: r) ++
          nlIndent 0))) ++ ['\x7d'] := by
      simp [dumpVal, List.append_assoc, List.cons_append]
    rw [he, List.getLast?_append_of_ne_nil _ (by simp)]
    rfl

/-- C6: whenever the patcher completes on a document, every key other
than the two it targets is unchanged: every top-level key other than
`bundle`, every key of `bundle` other than `resources` and the
`windows` path entry, every key of `bundle.windows` other than `nsis`,
and every key of `bundle.windows.nsis` other than `installerHooks` map to
their input values in the output. -/
theorem C6_frame_preservation (config out : Json) (c : List (String × Json))
    (h : update_config config = some out) (hc : config = .obj c) :
    ∃ c', out = .obj c' ∧
      (∀ k, k ≠ "bundle" → dictGet c' k = dictGet c k) ∧
      (∀ b0 b', dictGet c "bundle" = some (.obj b0) →
        dictGet c' "bundle" = some (.obj b') →
        ∀ k, k ≠ "resources" → k ≠ "windows" →
          dictGet b' k = dictGet b0 k) ∧
      (∀ b0 w0 w', dictGet c "bundle" = some (.obj b0) →
        dictGet b0 "windows" = some (.obj w0) →
        getPath out ["bundle", "windows"] = some (.obj w') →
        ∀ k, k ≠ "nsis" → dictGet w' k = dictGet w0 k) ∧
      (∀ b0 w0 n0 n', dictGet c "bundle" = some (.obj b0) →
        dictGet b0 "windows" = some (.obj w0) →
        dictGet w0 "nsis" = some (.obj n0) →
        getPath out ["bundle", "windows", "nsis"] = some (.obj n') →
        ∀ k, k ≠ "installerHooks" → dictGet n' k = dictGet n0 k) := by
  obtain ⟨c0, b, b2, w, w1, n, hceq, hb, hb2, hw2, hw1, hn, hout⟩ :=
    update_config_eq_some _ _ h
  rw [hc] at hceq
  injection hceq with hcc
  subst hcc
  subst hout
  refine ⟨_, rfl, ?_, ?_, ?_, ?_⟩
  · intro k hk
    exact dictGet_dictSet_ne _ _ _ _ hk
  · intro b0 b' hb0 hb' k hk1 hk2
    rw [hb] at hb0
    injection hb0 with hb0
    injection hb0 with hb0
    subst hb0
    rw [dictGet_dictSet_self] at hb'
    injection hb' with hb'
    injection hb' with hb'
    subst hb'
    rw [dictGet_dictSet_ne _ _ _ _ hk2]
    have : dictGet b2 k = dictGet (dictSet b "resources" (.arr resources_list)) k := by
      rw [hb2]
      split
      · rfl
      · exact dictGet_dictSet_ne _ _ _ _ hk2
    rw [this, dictGet_dictSet_ne _ _ _ _ hk1]
  · intro b0 w0 w' hb0 hw0 hw' k hk
    rw [hb] at hb0
    injection hb0 with hb0
    injection hb0 with hb0
    subst hb0
    have hb1w : dictGet (dictSet b "resources" (.arr resources_list))
        "windows" = some (.obj w0) := by
      rw [dictGet_dictSet_ne _ _ _ _ (by decide), hw0]
    have hb2b1 : b2 = dictSet b "resources" (.arr resources_list) := by
      rw [hb2, hb1w]
      simp
    rw [hb2b1, hb1w] at hw2
    injection hw2 with hw2
    injection hw2 with hw2
    subst hw2
    simp only [getPath, dictGet_dictSet_self] at hw'
    injection hw' with hw'
    injection hw' with hw'
    subst hw'
    rw [dictGet_dictSet_ne _ _ _ _ hk]
    have : dictGet w1 k = dictGet w0 k := by
      rw [hw1]
      split
      · rfl
      · exact dictGet_dictSet_ne _ _ _ _ hk
    exact this
  · intro b0 w0 n0 n' hb0 hw0 hn0 hn' k hk
    rw [hb] at hb0
    injection hb0 with hb0
    injection hb0 with hb0
    subst hb0
    have hb1w : dictGet (dictSet b "resources" (.arr resources_list))
        "windows" = some (.obj w0) := by
      rw [dictGet_dictSet_ne _ _ _ _ (by decide), hw0]
    have hb2b1 : b2 = dictSet b "resources" (.arr resources_list) := by
      rw [hb2, hb1w]
      simp
    rw [hb2b1, hb1w] at hw2
    injection hw2 with hw2
    injection hw2 with hw2
    subst hw2
    have hw1w : w1 = w0 := by
      rw [hw1, hn0]
      simp
    rw [hw1w, hn0] at hn
    injection hn with hn
    injection hn with hn
    subst hn
    simp only [getPath, dictGet_dictSet_self] at hn'
    injection hn' with hn'
    injection hn' with hn'
    subst hn'
    rw [dictGet_dictSet_ne _ _ _ _ hk]

/-- Witness for C6, on the document
`\x7b"bundle": \x7b"windows": \x7b"nsis": \x7b\x7d\x7d\x7d, "x": null\x7d`. -/
theorem C6_frame_preservation_witness :
    update_config (.obj [("bundle", .obj
        [("windows", .obj [("nsis", .obj [("keep", .num 7)])]),
         ("keepB", .bool true)]), ("x", .null)]) =
      some (.obj [("bundle", .obj
        [("windows", .obj [("nsis", .obj
           [("keep", .num 7),
            ("installerHooks", .str "nsis_hooks.nsi")])]),
         ("keepB", .bool true),
         ("resources", .arr resources_list)]), ("x", .null)]) ∧
    (.obj [("bundle", .obj
        [("windows", .obj [("nsis", .obj [("keep", .num 7)])]),
         ("keepB", .bool true)]), ("x", .null)] : Json) =
      .obj [("bundle", .obj
        [("windows", .obj [("nsis", .obj [("keep", .num 7)])]),
         ("keepB", .bool true)]), ("x", .null)] ∧
    ∃ c', (.obj [("bundle", .obj
        [("windows", .obj [("nsis", .obj
           [("keep", .num 7),
            ("installerHooks", .str "nsis_hooks.nsi")])]),
         ("keepB", .bool true),
         ("resources", .arr resources_list)]), ("x", .null)] : Json) =
        .obj c' ∧
      (∀ k, k ≠ "bundle" → dictGet c' k =
        dictGet [("bundle", .obj
          [("windows", .obj [("nsis", .obj [("keep", .num 7)])]),
           ("keepB", .bool true)]), ("x", .null)] k) ∧
      (∀ b0 b', dictGet [("bundle", .obj
          [("windows", .obj [("nsis", .obj [("keep", .num 7)])]),
           ("keepB", .bool true)]), ("x", .null)] "bundle" =
            some (.obj b0) →
        dictGet c' "bundle" = some (.obj b') →
        ∀ k, k ≠ "resources" → k ≠ "windows" →
          dictGet b' k = dictGet b0 k) ∧
      (∀ b0 w0 w', dictGet [("bundle", .obj
          [("windows", .obj [("nsis", .obj [("keep", .num 7)])]),
           ("keepB", .bool true)]), ("x", .null)] "bundle" =
            some (.obj b0) →
        dictGet b0 "windows" = some (.obj w0) →
        getPath (.obj [("bundle", .obj
          [("windows", .obj [("nsis", .obj
             [("keep", .num 7),
              ("installerHooks", .str "nsis_hooks.nsi")])]),
           ("keepB", .bool true),
           ("resources", .arr resources_list)]), ("x", .null)])
          ["bundle", "windows"] = some (.obj w') →
        ∀ k, k ≠ "nsis" → dictGet w' k = dictGet w0 k) ∧
      (∀ b0 w0 n0 n', dictGet [("bundle", .obj
          [("windows", .obj [("nsis", .obj [("keep", .num 7)])]),
           ("keepB", .bool true)]), ("x", .null)] "bundle" =
            some (.obj b0) →
        dictGet b0 "windows" = some (.obj w0) →
        dictGet w0 "nsis" = some (.obj n0) →
        getPath (.obj [("bundle", .obj
          [("windows", .obj [("nsis", .obj
             [("keep", .num 7),
              ("installerHooks", .str "nsis_hooks.nsi")])]),
           ("keepB", .bool true),
           ("resources", .arr resources_list)]), ("x", .null)])
          ["bundle", "windows", "nsis"] = some (.obj n') →
        ∀ k, k ≠ "installerHooks" → dictGet n' k = dictGet n0 k) :=
  ⟨by decide, rfl,
    C6_frame_preservation _ _ _ (by decide) rfl⟩

/-- C7: given a top-level `"bundle"` mapping (with `windows`/`nsis`, when
present, being mappings), the patcher succeeds and the output contains
`bundle.windows` and `bundle.windows.nsis` mappings: absent ones are
created empty (the output then holds only the key the script adds),
present ones keep their existing entries. -/
theorem C7_nested_keys_exist (config : Json) (c b : List (String × Json))
    (hc : config = .obj c) (hb : dictGet c "bundle" = some (.obj b))
    (hok : windows_nsis_ok b = true) :
    ∃ out wOut nOut, update_config config = some out ∧
      getPath out ["bundle", "windows"] = some (.obj wOut) ∧
      dictGet wOut "nsis" = some (.obj nOut) ∧
      (dictGet b "windows" = none →
        ∀ k, k ≠ "nsis" → dictGet wOut k = none) ∧
      (∀ w0, dictGet b "windows" = some (.obj w0) →
        ∀ k, k ≠ "nsis" → dictGet wOut k = dictGet w0 k) ∧
      (getPath (.obj b) ["windows", "nsis"] = none →
        ∀ k, k ≠ "installerHooks" → dictGet nOut k = none) ∧
      (∀ n0, getPath (.obj b) ["windows", "nsis"] = some (.obj n0) →
        ∀ k, k ≠ "installerHooks" → dictGet nOut k = dictGet n0 k) := by
  subst hc
  obtain ⟨out, hu⟩ := update_config_obj_some c b hb hok
  obtain ⟨c0, b0, b2, w, w1, n, hceq, hb0, hb2, hw2, hw1, hn, hout⟩ :=
    update_config_eq_some _ _ hu
  injection hceq with hcc
  subst hcc
  rw [hb] at hb0
  injection hb0 with hb0
  injection hb0 with hb0
  subst hb0
  subst hout
  have hb1 : dictGet (dictSet b "resources" (.arr resources_list)) "windows"
      = dictGet b "windows" := dictGet_dictSet_ne _ _ _ _ (by decide)
  refine ⟨_, dictSet w1 "nsis"
      (.obj (dictSet n "installerHooks" (.str "nsis_hooks.nsi"))),
    dictSet n "installerHooks" (.str "nsis_hooks.nsi"),
    hu, ?_, ?_, ?_, ?_, ?_, ?_⟩
  · simp only [getPath, dictGet_dictSet_self]
  · exact dictGet_dictSet_self ..
  · -- windows absent: created, holding only "nsis"
    intro hww k hk
    rw [hww] at hb1
    have hb2v : b2 = dictSet (dictSet b "resources" (.arr resources_list))
        "windows" (.obj []) := by
      rw [hb2, hb1]
      simp
    rw [hb2v, dictGet_dictSet_self] at hw2
    injection hw2 with hw2
    injection hw2 with hw2
    subst hw2
    have hw1v : w1 = [("nsis", .obj [])] := by
      rw [hw1]
      simp [dictGet, dictSet]
    rw [hw1v]
    have : ("nsis" : String) ≠ k := fun hh => hk hh.symm
    simp [dictSet, dictGet, this]
  · -- windows present: entries kept
    intro w0 hww k hk
    rw [hww] at hb1
    have hb2v : b2 = dictSet b "resources" (.arr resources_list) := by
      rw [hb2, hb1]
      simp
    rw [hb2v, hb1] at hw2
    injection hw2 with hw2
    injection hw2 with hw2
    subst hw2
    rw [dictGet_dictSet_ne _ _ _ _ hk]
    rw [hw1]
    split
    · rfl
    · exact dictGet_dictSet_ne _ _ _ _ hk
  · -- nsis absent: created, holding only "installerHooks"
    intro habs k hk
    simp only [getPath] at habs
    have hnv : n = [] := by
      cases hww : dictGet b "windows" with
      | none =>
        rw [hww] at hb1
        have hb2v : b2 = dictSet (dictSet b "resources"
            (.arr resources_list)) "windows" (.obj []) := by
          rw [hb2, hb1]
          simp
        rw [hb2v, dictGet_dictSet_self] at hw2
        injection hw2 with hw2
        injection hw2 with hw2
        subst hw2
        have hw1v : w1 = [("nsis", .obj [])] := by
          rw [hw1]
          simp [dictGet, dictSet]
        rw [hw1v] at hn
        simp [dictGet] at hn
        exact hn
      | some wv =>
        rw [hww] at habs hb1
        cases wv with
        | obj w0 =>
          have hb2v : b2 = dictSet b "resources" (.arr resources_list) := by
            rw [hb2, hb1]
            simp
          rw [hb2v, hb1] at hw2
          injection hw2 with hw2
          injection hw2 with hw2
          subst hw2
          cases hns : dictGet w0 "nsis" with
          | none =>
            have hw1v : w1 = dictSet w0 "nsis" (.obj []) := by
              rw [hw1, hns]
              simp
            rw [hw1v, dictGet_dictSet_self] at hn
            injection hn with hn
            injection hn with hn
            exact hn.symm
          | some nv => simp [hns] at habs
        | null => simp [windows_nsis_ok, hww] at hok
        | bool bb => simp [windows_nsis_ok, hww] at hok
        | num nn => simp [windows_nsis_ok, hww] at hok
        | str ss => simp [windows_nsis_ok, hww] at hok
        | arr ll => simp [windows_nsis_ok, hww] at hok
    subst hnv
    have : ("installerHooks" : String) ≠ k := fun hh => hk hh.symm
    simp [dictSet, dictGet, this]
  · -- nsis present: entries kept
    intro n0 hpres k hk
    simp only [getPath] at hpres
    cases hww : dictGet b "windows" with
    | none => rw [hww] at hpres; simp at hpres
    | some wv =>
      rw [hww] at hpres hb1
      cases wv with
      | obj w0 =>
        have hb2v : b2 = dictSet b "resources" (.arr resources_list) := by
          rw [hb2, hb1]
          simp
        rw [hb2v, hb1] at hw2
        injection hw2 with hw2
        injection hw2 with hw2
        subst hw2
        cases hns : dictGet w0 "nsis" with
        | none => simp [hns] at hpres
        | some nv =>
          simp only [getPath, hns] at hpres
          injection hpres with hpres
          subst hpres
          have hw1v : w1 = w0 := by
            rw [hw1, hns]
            simp
          rw [hw1v, hns] at hn
          injection hn with hn
          injection hn with hn
          subst hn
          exact dictGet_dictSet_ne _ _ _ _ hk
      | null => simp [windows_nsis_ok, hww] at hok
      | bool bb => simp [windows_nsis_ok, hww] at hok
      | num nn => simp [windows_nsis_ok, hww] at hok
      | str ss => simp [windows_nsis_ok, hww] at hok
      | arr ll => simp [windows_nsis_ok, hww] at hok

/-- Witness for C7, on the minimal document `cfgMin` (both `windows` and
`nsis` absent). -/
theorem C7_nested_keys_exist_witness :
    (cfgMin = Json.obj [("bundle", .obj [])] ∧
     dictGet [("bundle", .obj [])] "bundle" = some (.obj []) ∧
     windows_nsis_ok [] = true) ∧
    (∃ out wOut nOut, update_config cfgMin = some out ∧
      getPath out ["bundle", "windows"] = some (.obj wOut) ∧
      dictGet wOut "nsis" = some (.obj nOut) ∧
      (dictGet ([] : List (String × Json)) "windows" = none →
        ∀ k, k ≠ "nsis" → dictGet wOut k = none) ∧
      (∀ w0, dictGet ([] : List (String × Json)) "windows" =
          some (.obj w0) →
        ∀ k, k ≠ "nsis" → dictGet wOut k = dictGet w0 k) ∧
      (getPath (.obj []) ["windows", "nsis"] = none →
        ∀ k, k ≠ "installerHooks" → dictGet nOut k = none) ∧
      (∀ n0, getPath (.obj []) ["windows", "nsis"] = some (.obj n0) →
        ∀ k, k ≠ "installerHooks" → dictGet nOut k = dictGet n0 k)) :=
  ⟨⟨rfl, by decide, by decide⟩,
    C7_nested_keys_exist cfgMin [("bundle", .obj [])] [] rfl (by decide)
      (by decide)⟩

/-- Running the mutation block on its own (well-formed) output changes
nothing: every value it assigns is already in place. -/
theorem update_config_idem (config out : Json) (hwf : wfJson config = true)
    (h : update_config config = some out) : update_config out = some out := by
  have hwout : wfJson out = true := wfJson_update_config _ _ hwf h
  obtain ⟨c, b, b2, w, w1, n, rfl, hb, hb2, hw2, hw1, hn, hout⟩ :=
    update_config_eq_some _ _ h
  have hres : dictGet b2 "resources" = some (.arr resources_list) := by
    rw [hb2]
    split
    · exact dictGet_dictSet_self ..
    · rw [dictGet_dictSet_ne _ _ _ _ (by decide)]
      exact dictGet_dictSet_self ..
  set N1 := dictSet n "installerHooks" (.str "nsis_hooks.nsi") with hN1def
  set W2 := dictSet w1 "nsis" (.obj N1) with hW2def
  set B3 := dictSet b2 "windows" (.obj W2) with hB3def
  set C2v := dictSet c "bundle" (.obj B3) with hC2def
  subst hout
  simp only [wfJson, Bool.and_eq_true] at hwout
  have hwB3 : wfJson (.obj B3) = true := by
    refine wfMembers_dictGet C2v "bundle" _ hwout.2 ?_
    rw [hC2def]
    exact dictGet_dictSet_self ..
  simp only [wfJson, Bool.and_eq_true] at hwB3
  have hwW2 : wfJson (.obj W2) = true := by
    refine wfMembers_dictGet B3 "windows" _ hwB3.2 ?_
    rw [hB3def]
    exact dictGet_dictSet_self ..
  simp only [wfJson, Bool.and_eq_true] at hwW2
  have hwN1 : wfJson (.obj N1) = true := by
    refine wfMembers_dictGet W2 "nsis" _ hwW2.2 ?_
    rw [hW2def]
    exact dictGet_dictSet_self ..
  simp only [wfJson, Bool.and_eq_true] at hwN1
  have g1 : dictGet C2v "bundle" = some (.obj B3) := by
    rw [hC2def]
    exact dictGet_dictSet_self ..
  have g2 : dictSet B3 "resources" (.arr resources_list) = B3 := by
    refine dictSet_of_mem _ _ _ hwB3.1 ?_
    rw [hB3def, dictGet_dictSet_ne _ _ _ _ (by decide)]
    exact hres
  have g3 : dictGet B3 "windows" = some (.obj W2) := by
    rw [hB3def]
    exact dictGet_dictSet_self ..
  have g4 : dictGet W2 "nsis" = some (.obj N1) := by
    rw [hW2def]
    exact dictGet_dictSet_self ..
  have g5 : dictGet N1 "installerHooks" = some (.str "nsis_hooks.nsi") := by
    rw [hN1def]
    exact dictGet_dictSet_self ..
  have g6 : dictSet N1 "installerHooks" (.str "nsis_hooks.nsi") = N1 :=
    dictSet_of_mem _ _ _ hwN1.1 g5
  have g7 : dictSet W2 "nsis" (.obj N1) = W2 :=
    dictSet_of_mem _ _ _ hwW2.1 g4
  have g8 : dictSet B3 "windows" (.obj W2) = B3 :=
    dictSet_of_mem _ _ _ hwB3.1 g3
  have g9 : dictSet C2v "bundle" (.obj B3) = C2v :=
    dictSet_of_mem _ _ _ hwout.1 g1
  simp only [update_config, g1, g2, g3, Option.isSome_some, if_true, g4, g6,
    g7, g8, g9]

/-- C5: the patcher is idempotent — running it again on the files a
successful run produced yields exactly the same files (configuration file
and hook file) and succeeds. -/
theorem C5_idempotent (fs fs1 : FS) (h : runScript fs = (fs1, true)) :
    runScript fs1 = (fs1, true) := by
  obtain ⟨s, config, out, hs, hl, hu, rfl⟩ := runScript_eq_true fs fs1 h
  have hwf : wfJson config = true := loads_wf s config hl
  have hwout : wfJson out = true := wfJson_update_config _ _ hwf hu
  exact runScript_of_success _ _ out out rfl (loads_dumps out hwout)
    (update_config_idem _ _ hwf hu)

set_option maxRecDepth 200000 in
/-- Witness for C5, on the minimal document. -/
theorem C5_idempotent_witness :
    runScript fsMin = ((runScript fsMin).1, true) ∧
    runScript (runScript fsMin).1 = ((runScript fsMin).1, true) :=
  ⟨by decide, C5_idempotent fsMin (runScript fsMin).1 (by decide)⟩

/-- C8: a successful run rewrites the configuration file with exactly the
`indent=2` serialization of the mutated document followed by a single
newline (the serialized text itself ends with the closing brace), and that
file text parses back to exactly the mutated in-memory document. -/
theorem C8_reserialization (fs fs1 : FS) (h : runScript fs = (fs1, true)) :
    ∃ s config out, fs.configFile = some s ∧ loads s = some config ∧
      update_config config = some out ∧
      fs1.configFile = some (dumps out ++ "\n") ∧
      (dumps out).data.getLast? = some '\x7d' ∧
      loads (dumps out ++ "\n") = some out := by
  obtain ⟨s, config, out, hs, hl, hu, rfl⟩ := runScript_eq_true fs fs1 h
  have hwf : wfJson config = true := loads_wf s config hl
  have hwout : wfJson out = true := wfJson_update_config _ _ hwf hu
  obtain ⟨c, b, b2, w, w1, n, hc, hb, hb2, hw2, hw1, hn, hout⟩ :=
    update_config_eq_some _ _ hu
  refine ⟨s, config, out, hs, hl, hu, rfl, ?_, loads_dumps out hwout⟩
  rw [hout]
  exact dumps_obj_last _

set_option maxRecDepth 200000 in
/-- Witness for C8, on the minimal document. -/
theorem C8_reserialization_witness :
    runScript fsMin = ((runScript fsMin).1, true) ∧
    (∃ s config out, fsMin.configFile = some s ∧ loads s = some config ∧
      update_config config = some out ∧
      (runScript fsMin).1.configFile = some (dumps out ++ "\n") ∧
      (dumps out).data.getLast? = some '\x7d' ∧
      loads (dumps out ++ "\n") = some out) :=
  ⟨by decide, C8_reserialization fsMin (runScript fsMin).1 (by decide)⟩

/-- C9: on a document that parses but has no top-level `"bundle"` mapping,
the run fails, the configuration file is left unmodified — and the hook
file has nevertheless been written (the script creates only the `windows`
and `nsis` sub-mappings, never `bundle` itself). -/
theorem C9_missing_bundle (fs : FS) (s : String) (config : Json)
    (hf : fs.configFile = some s) (hl : loads s = some config)
    (hb : ∀ c b, config = .obj c → dictGet c "bundle" ≠ some (.obj b)) :
    runScript fs =
      ({ configFile := some s, hooksFile := some nsis_hook_content },
        false) := by
  cases hu : update_config config with
  | none => simp [runScript, hf, hl, hu]
  | some out =>
    obtain ⟨c, b, _, _, _, _, hc, hbb, -⟩ := update_config_eq_some _ _ hu
    exact absurd hbb (hb c b hc)

/-- Witness for C9, on the empty document `\x7b\x7d`. -/
theorem C9_missing_bundle_witness :
    (fsEmptyObj.configFile = some "\x7b\x7d" ∧
     loads "\x7b\x7d" = some (.obj []) ∧
     (∀ c b, (Json.obj [] : Json) = .obj c →
       dictGet c "bundle" ≠ some (.obj b))) ∧
    runScript fsEmptyObj =
      ({ configFile := some "\x7b\x7d",
         hooksFile := some nsis_hook_content }, false) :=
  ⟨⟨rfl, by decide, fun c b hc => by
      injection hc with h
      subst h
      simp [dictGet]⟩,
    C9_missing_bundle fsEmptyObj "\x7b\x7d" (.obj []) rfl (by decide)
      (fun c b hc => by
        injection hc with h
        subst h
        simp [dictGet])⟩

/-- C10: a run is deterministic and its outputs depend only on the parsed
input document: the hook file always receives the same fixed content, and
two runs whose configuration files hold the same document succeed or fail
together and, on success, write identical configuration files. -/
theorem C10_deterministic (fs fs2 : FS) (s s2 : String) (config : Json)
    (h1 : fs.configFile = some s) (h2 : fs2.configFile = some s2)
    (l1 : loads s = some config) (l2 : loads s2 = some config) :
    (runScript fs).1.hooksFile = some nsis_hook_content ∧
    (runScript fs).1.hooksFile = (runScript fs2).1.hooksFile ∧
    (runScript fs).2 = (runScript fs2).2 ∧
    ((runScript fs).2 = true →
      (runScript fs).1.configFile = (runScript fs2).1.configFile) := by
  refine ⟨runScript_hooksFile fs,
    (runScript_hooksFile fs).trans (runScript_hooksFile fs2).symm, ?_, ?_⟩
  · cases hu : update_config config with
    | none => simp [runScript, h1, h2, l1, l2, hu]
    | some out => simp [runScript, h1, h2, l1, l2, hu]
  · intro hsucc
    cases hu : update_config config with
    | none => simp [runScript, h1, l1, hu] at hsucc
    | some out => simp [runScript, h1, h2, l1, l2, hu]

/-- Witness for C10, two states holding the same document `\x7b\x7d` with
different surrounding whitespace. -/
theorem C10_deterministic_witness :
    (fsEmptyObj.configFile = some "\x7b\x7d" ∧
      fsEmptyObjWs.configFile = some " \x7b\x7d " ∧
      loads "\x7b\x7d" = some (.obj []) ∧
      loads " \x7b\x7d " = some (.obj [])) ∧
    ((runScript fsEmptyObj).1.hooksFile = some nsis_hook_content ∧
     (runScript fsEmptyObj).1.hooksFile =
       (runScript fsEmptyObjWs).1.hooksFile ∧
     (runScript fsEmptyObj).2 = (runScript fsEmptyObjWs).2 ∧
     ((runScript fsEmptyObj).2 = true →
       (runScript fsEmptyObj).1.configFile =
         (runScript fsEmptyObjWs).1.configFile)) :=
  ⟨⟨rfl, rfl, by decide, by decide⟩,
    C10_deterministic fsEmptyObj fsEmptyObjWs "\x7b\x7d" " \x7b\x7d "
      (.obj []) rfl rfl (by decide) (by decide)⟩
